import Mathlib

/-!
# giga-hash-map: open-addressing hash map over string keys

A shallow embedding of `src/src/hashmap.c` (the library) together with the
bump allocator stand-in of `src/main.c`, and theorems about it.

Conventions of the embedding.

* `size_t` and `hm_u64` are 64-bit (the source requires it through
  `HM_U64_IS_64_BIT`); they are natural numbers reduced `% 2 ^ 64` wherever
  the C arithmetic can wrap.
* A key (`const char *`) is the list of the bytes of the string before its
  terminating NUL; `strcmp(a, b) == 0` is equality of these lists.  An entry
  stores `none` for the null key pointer.
* A value (`void *`) is a natural number, `0` being the null pointer.
* The three loops of the source are `for (;;)` loops; their embeddings take a
  fuel argument and return `none` when the fuel runs out, so `none` stands
  for "has not returned yet".
* Memory is not modelled.  The one place where the source can run past a block
  it was given, the initialisation loop of `hashmap_create` after a wrapped
  size computation, is a `none` result as well.
-/

namespace GigaHashMap

/-- A key: the bytes of a NUL-terminated string, terminator excluded. -/
abbrev Key := List Nat

/-- Modulus of `size_t` and `hm_u64` arithmetic. -/
def WORD : Nat := 2 ^ 64

/-- The `struct Entry` of `hashmap.c`. -/
structure Entry where
  key : Option Key
  value : Nat
  hash : Nat
  used : Bool
  tombstone : Bool
deriving DecidableEq, Repr

/-- The `struct HashMap` of `hashmap.c`.  The borrowed `arena` pointer is stored by
`hashmap_create` and never read again by any operation; it is left out. -/
structure HashMap where
  entries : List Entry
  capacity : Nat
  count : Nat
deriving DecidableEq, Repr

/-- The `FakeArena` of `main.c`, the bump allocator standing in for giga-arena
(`base` is only used to form the returned address and is left out). -/
structure Arena where
  size : Nat
  used : Nat
deriving DecidableEq, Repr

/-- Value of `sizeof(HashMap)` on an LP64 target: three words and a pointer. -/
def sizeof_HashMap : Nat := 32

/-- Value of `sizeof(Entry)` on an LP64 target: two pointers, a word and two bytes, padded. -/
def sizeof_Entry : Nat := 32

/-- The functions `arena_alloc` / `fake_arena_alloc` of `main.c`: `none` is the NULL result,
`some a` is a non-null block together with the arena after the bump. -/
def arena_alloc (arena : Arena) (size : Nat) : Option Arena :=
  if (arena.used + size) % WORD > arena.size then none
  else some { arena with used := (arena.used + size) % WORD }

/-- One round of the `while (*s)` loop of `hash_str`. -/
def hash_step (h c : Nat) : Nat :=
  ((h ^^^ (c % 256)) * 1099511628211) % WORD

/-- The function `hash_str` of `hashmap.c`. -/
def hash_str (s : Key) : Nat :=
  s.foldl hash_step 1469598103934665603

/-- The `while (p < x) p <<= 1;` loop of `next_pow2`, with fuel. -/
def next_pow2_loop (x : Nat) : Nat → Nat → Option Nat
  | 0, _ => none
  | fuel + 1, p => if p < x then next_pow2_loop x fuel ((p <<< 1) % WORD) else some p

/-- The function `next_pow2` of `hashmap.c`. -/
def next_pow2 (fuel x : Nat) : Option Nat :=
  next_pow2_loop x fuel 1

/-- The slot written by the initialisation loop of `hashmap_create`. -/
def emptyEntry : Entry :=
  { key := none, value := 0, hash := 0, used := false, tombstone := false }

/-- The function `hashmap_create`.  The result is `none` when the call produces
neither a pointer nor NULL: while `next_pow2` has not returned, and when
`capacity * sizeof(Entry)` wraps in `size_t`, the wrapped request is granted and
the initialisation loop then writes `capacity` slots past the end of that block
(undefined behaviour).  Otherwise the result is the returned pointer (`none` for
NULL) and the arena afterwards.  The initialisation loop writes all five fields
of every slot `i < capacity`, so the slot array is `capacity` copies of
`emptyEntry`. -/
def hashmap_create (fuel : Nat) (arena : Option Arena) (capacity : Nat) :
    Option (Option HashMap × Option Arena) :=
  match arena with
  | none => some (none, none)
  | some a =>
    match arena_alloc a sizeof_HashMap with
    | none => some (none, some a)
    | some a1 =>
      match (if capacity ≠ 0 then next_pow2 fuel capacity else some 16) with
      | none => none
      | some cap =>
        match arena_alloc a1 ((cap * sizeof_Entry) % WORD) with
        | none => some (none, some a1)
        | some a2 =>
          if cap * sizeof_Entry < WORD then
            some (some { entries := List.replicate cap emptyEntry, capacity := cap, count := 0 },
                  some a2)
          else none

/-- The copy loop of `hashmap_clone`: `for (i = 0; i < n; ++i) dst[i] = src[i];`. -/
def copy_entries (src : List Entry) : Nat → List Entry → List Entry
  | 0, dst => dst
  | n + 1, dst => (copy_entries src n dst).set n (src.getD n emptyEntry)

/-- The function `hashmap_clone`. -/
def hashmap_clone (fuel : Nat) (src : Option HashMap) (arena : Option Arena) :
    Option (Option HashMap × Option Arena) :=
  match src, arena with
  | some s, some a =>
    match hashmap_create fuel (some a) s.capacity with
    | none => none
    | some (none, a') => some (none, a')
    | some (some m, a') =>
      some (some { m with entries := copy_entries s.entries s.capacity m.entries,
                          count := s.count }, a')
  | _, _ => some (none, arena)

/-- The assignment `mask = map->capacity - 1` in `size_t`. -/
def mask_of (capacity : Nat) : Nat := (capacity + WORD - 1) % WORD

/-- The increment `++step` in `size_t`. -/
def next_step (step : Nat) : Nat := (step + 1) % WORD

/-- The assignment `i = (i + ++step) & mask` in `size_t`. -/
def next_index (mask i step : Nat) : Nat := ((i + next_step step) % WORD) &&& mask

/-- The `for (;;)` loop of `hashmap_get`. -/
def get_loop (entries : List Entry) (hash : Nat) (key : Key) (mask : Nat) :
    Nat → Nat → Nat → Option Nat
  | 0, _, _ => none
  | fuel + 1, i, step =>
    let e := entries.getD i emptyEntry
    if e.used = false then some 0
    else if e.hash = hash ∧ e.key = some key then some e.value
    else get_loop entries hash key mask fuel (next_index mask i step) (next_step step)

/-- The function `hashmap_get`: `none` while the loop has not returned, else the pointer. -/
def hashmap_get (fuel : Nat) (map : Option HashMap) (key : Option Key) : Option Nat :=
  match map, key with
  | some m, some k =>
    get_loop m.entries (hash_str k) k (mask_of m.capacity) fuel
      (hash_str k &&& mask_of m.capacity) 0
  | _, _ => some 0

/-- The `for (;;)` loop of `hashmap_put`; `ft` is `first_tombstone` as a slot index. -/
def put_loop (m : HashMap) (hash : Nat) (key : Key) (value : Nat) (mask : Nat) :
    Nat → Nat → Nat → Option Nat → Option (HashMap × Nat)
  | 0, _, _, _ => none
  | fuel + 1, i, step, ft =>
    let e := m.entries.getD i emptyEntry
    if e.used = false then
      some ({ m with
                entries := m.entries.set (ft.getD i)
                  { key := some key, value := value, hash := hash, used := true,
                    tombstone := false },
                count := (m.count + 1) % WORD }, 1)
    else if e.tombstone = true ∧ ft = none then
      put_loop m hash key value mask fuel (next_index mask i step) (next_step step) (some i)
    else if e.tombstone = false ∧ e.hash = hash ∧ e.key = some key then
      some ({ m with entries := m.entries.set i { e with value := value } }, 1)
    else
      put_loop m hash key value mask fuel (next_index mask i step) (next_step step) ft

/-- The function `hashmap_put`: `none` while the loop has not returned, else the map
afterwards and the `int` result. -/
def hashmap_put (fuel : Nat) (map : Option HashMap) (key : Option Key) (value : Nat) :
    Option (Option HashMap × Nat) :=
  match map, key with
  | some m, some k =>
    (put_loop m (hash_str k) k value (mask_of m.capacity) fuel
      (hash_str k &&& mask_of m.capacity) 0 none).map (fun r => (some r.1, r.2))
  | _, _ => some (map, 0)

/-- The `for (;;)` loop of `hashmap_remove`. -/
def remove_loop (m : HashMap) (hash : Nat) (key : Key) (mask : Nat) :
    Nat → Nat → Nat → Option (HashMap × Nat)
  | 0, _, _ => none
  | fuel + 1, i, step =>
    let e := m.entries.getD i emptyEntry
    if e.used = false ∧ e.tombstone = false then some (m, 0)
    else if e.used = true ∧ e.tombstone = false ∧ e.hash = hash ∧ e.key = some key then
      some ({ m with entries := m.entries.set i { e with tombstone := true },
                     count := (m.count + WORD - 1) % WORD }, 1)
    else remove_loop m hash key mask fuel (next_index mask i step) (next_step step)

/-- The function `hashmap_remove`: `none` while the loop has not returned, else the map
afterwards and the `int` result. -/
def hashmap_remove (fuel : Nat) (map : Option HashMap) (key : Option Key) :
    Option (Option HashMap × Nat) :=
  match map, key with
  | some m, some k =>
    (remove_loop m (hash_str k) k (mask_of m.capacity) fuel
      (hash_str k &&& mask_of m.capacity) 0).map (fun r => (some r.1, r.2))
  | _, _ => some (map, 0)

/-! ## The benchmark map of `main.c`

`main.c` carries its own, separate hash map over integer keys (no tombstones,
no lookup, no removal).  Its `hashmap_put` is the only place of the repository
with a load-factor test. -/

namespace Bench

/-- The `struct Entry` of `main.c`. -/
structure Entry where
  key : Nat
  value : Nat
  hash : Nat
  used : Bool
deriving DecidableEq, Repr

/-- The `struct HashMap` of `main.c` (the `arena` pointer and the `use_malloc`
flag are read by `alloc_entries` only and are left out). -/
structure HashMap where
  entries : List Entry
  capacity : Nat
  count : Nat
deriving DecidableEq, Repr

/-- A slot as `alloc_entries` leaves it after `memset(e, 0, bytes)`. -/
def zeroEntry : Entry := { key := 0, value := 0, hash := 0, used := false }

/-- The function `hash_u64` of `main.c`. -/
def hash_u64 (x : Nat) : Nat :=
  let x1 := x ^^^ (x >>> 33)
  let x2 := (x1 * 0xff51afd7) % WORD
  let x3 := x2 ^^^ (x2 >>> 33)
  let x4 := (x3 * 0xc4ceb9fe) % WORD
  x4 ^^^ (x4 >>> 33)

/-- The `for (;;)` loop of the `hashmap_put` of `main.c`. -/
def put_loop (m : HashMap) (key value hash mask : Nat) : Nat → Nat → Nat → Option HashMap
  | 0, _, _ => none
  | fuel + 1, i, step =>
    let e := m.entries.getD i zeroEntry
    if e.used = false then
      some { m with
               entries := m.entries.set i { key := key, value := value, hash := hash, used := true },
               count := (m.count + 1) % WORD }
    else put_loop m key value hash mask fuel (next_index mask i step) (next_step step)

/-- The `hashmap_put` of `main.c` (a `void` function): `none` while the loop has
not returned, else the map afterwards. -/
def hashmap_put (fuel : Nat) (m : HashMap) (key value : Nat) : Option HashMap :=
  if (m.count * 10) % WORD ≥ (m.capacity * 7) % WORD then some m
  else put_loop m key value (hash_u64 key) (mask_of m.capacity) fuel
    (hash_u64 key &&& mask_of m.capacity) 0

/-- The map `hashmap_init` sets up for a capacity of 4: four zeroed slots. -/
def map4 : HashMap :=
  { entries := [zeroEntry, zeroEntry, zeroEntry, zeroEntry], capacity := 4, count := 0 }

/-- The map `map4` after the benchmark's `hashmap_put(m, 0, 0)` and
`hashmap_put(m, 1, 2)`: key 0 hashes to slot 0 and key 1 to slot 3. -/
def map4_01 : HashMap :=
  { entries := [{ key := 0, value := 0, hash := 0, used := true }, zeroEntry, zeroEntry,
      { key := 1, value := 2, hash := 14143756781318606271, used := true }],
    capacity := 4, count := 2 }

/-- The map `map4_01` after the benchmark's `hashmap_put(m, 2, 4)`: key 2 hashes
to slot 3 and lands in slot 2 after two more probes. -/
def map4_012 : HashMap :=
  { entries := [{ key := 0, value := 0, hash := 0, used := true }, zeroEntry,
      { key := 2, value := 4, hash := 9840769491075144575, used := true },
      { key := 1, value := 2, hash := 14143756781318606271, used := true }],
    capacity := 4, count := 3 }

end Bench

/-! ## Vocabulary for the properties -/

/-- The test `e->hash == hash && strcmp(e->key, key) == 0` of the three loops. -/
def Entry.holds (e : Entry) (k : Key) : Prop :=
  e.hash = hash_str k ∧ e.key = some k

instance (e : Entry) (k : Key) : Decidable (e.holds k) :=
  inferInstanceAs (Decidable (e.hash = hash_str k ∧ e.key = some k))

/-- A Live slot: used and not tombstoned. -/
def Entry.live (e : Entry) : Prop :=
  e.used = true ∧ e.tombstone = false

instance (e : Entry) : Decidable e.live :=
  inferInstanceAs (Decidable (e.used = true ∧ e.tombstone = false))

/-- Slot `x` of the map (`emptyEntry` beyond the array, which no probe reaches). -/
def HashMap.slot (m : HashMap) (x : Nat) : Entry :=
  m.entries.getD x emptyEntry

/-- Key `k` is present in `m`: some slot is Live and holds `k`. -/
def Present (m : HashMap) (k : Key) : Prop :=
  ∃ x, (m.slot x).live ∧ (m.slot x).key = some k

/-- The loop variables `(i, step)` after `j` rounds of a probe loop started at `s`. -/
def probe_state (mask s : Nat) : Nat → Nat × Nat
  | 0 => (s, 0)
  | j + 1 =>
    (next_index mask (probe_state mask s j).1 (probe_state mask s j).2,
     next_step (probe_state mask s j).2)

/-- The loop variables `(i, step)` of the probe loops of `m` for key `k` after `j` rounds. -/
def loop_state (m : HashMap) (k : Key) (j : Nat) : Nat × Nat :=
  probe_state (mask_of m.capacity) (hash_str k &&& mask_of m.capacity) j

/-- Index of the slot that the probe loops of `m` examine for key `k` in round `j`. -/
def slot_at (m : HashMap) (k : Key) (j : Nat) : Nat :=
  (loop_state m k j).1

/-- The slot examined for key `k` in round `j`. -/
def entry_at (m : HashMap) (k : Key) (j : Nat) : Entry :=
  m.slot (slot_at m k j)

/-- Triangular numbers: the total offset `1 + 2 + … + j` of the probe sequence. -/
def tri : Nat → Nat
  | 0 => 0
  | j + 1 => tri j + (j + 1)

/-- First round at or after `j`, among `fuel` rounds, at which `stop` holds. -/
def first_stop (stop : Nat → Bool) : Nat → Nat → Option Nat
  | 0, _ => none
  | fuel + 1, j => if stop j then some j else first_stop stop fuel (j + 1)

/-- Round `j` ends the loop of `hashmap_get`. -/
def stop_get (m : HashMap) (k : Key) (j : Nat) : Bool :=
  decide ((entry_at m k j).used = false ∨ (entry_at m k j).holds k)

/-- Round `j` ends the loop of `hashmap_put`. -/
def stop_put (m : HashMap) (k : Key) (j : Nat) : Bool :=
  decide ((entry_at m k j).used = false ∨
    ((entry_at m k j).tombstone = false ∧ (entry_at m k j).holds k))

/-- Round `j` ends the loop of `hashmap_remove`. -/
def stop_remove (m : HashMap) (k : Key) (j : Nat) : Bool :=
  decide (((entry_at m k j).used = false ∧ (entry_at m k j).tombstone = false) ∨
    ((entry_at m k j).used = true ∧ (entry_at m k j).tombstone = false ∧
      (entry_at m k j).holds k))

/-- Slot index of the first tombstone among rounds `j, …, j + d - 1` of key `k`. -/
def first_tomb (m : HashMap) (k : Key) : Nat → Nat → Option Nat
  | _, 0 => none
  | j, d + 1 =>
    if (entry_at m k j).tombstone = true then some (slot_at m k j)
    else first_tomb m k (j + 1) d

/-- What `hashmap_get` returns when its loop ends in round `P`. -/
def get_result (m : HashMap) (k : Key) (P : Nat) : Nat :=
  if (entry_at m k P).used = false then 0 else (entry_at m k P).value

/-- The map after `e->value = value` on slot `x`. -/
def set_value (m : HashMap) (x v : Nat) : HashMap :=
  { m with entries := m.entries.set x { m.slot x with value := v } }

/-- The map after `hashmap_put` has written key `k` and value `v` into slot `y`
and incremented `count`. -/
def insert_at (m : HashMap) (y : Nat) (k : Key) (v : Nat) : HashMap :=
  { m with
      entries := m.entries.set y
        { key := some k, value := v, hash := hash_str k, used := true, tombstone := false },
      count := (m.count + 1) % WORD }

/-- The map after `hashmap_remove` has set `e->tombstone = 1` on slot `x` and
decremented `count`. -/
def tomb_at (m : HashMap) (x : Nat) : HashMap :=
  { m with entries := m.entries.set x { m.slot x with tombstone := true },
           count := (m.count + WORD - 1) % WORD }

/-- What `hashmap_put` does when its loop ends in round `P` with `first_tombstone = ft`. -/
def put_result (m : HashMap) (k : Key) (v : Nat) (P : Nat) (ft : Option Nat) : HashMap × Nat :=
  if (entry_at m k P).used = false then (insert_at m (ft.getD (slot_at m k P)) k v, 1)
  else (set_value m (slot_at m k P) v, 1)

/-- What `hashmap_remove` does when its loop ends in round `P`. -/
def remove_result (m : HashMap) (k : Key) (P : Nat) : HashMap × Nat :=
  if (entry_at m k P).used = false ∧ (entry_at m k P).tombstone = false then (m, 0)
  else (tomb_at m (slot_at m k P), 1)

/-- Maps reachable from `hashmap_create` by `hashmap_put`, `hashmap_remove` and
`hashmap_clone` (every call that returns a map). -/
inductive Reachable : HashMap → Prop
  | create (fuel : Nat) (arena : Arena) (capacity : Nat) (m : HashMap) (a : Option Arena) :
      hashmap_create fuel (some arena) capacity = some (some m, a) → Reachable m
  | put (fuel : Nat) (m : HashMap) (k : Key) (v : Nat) (m' : HashMap) (r : Nat) :
      Reachable m → hashmap_put fuel (some m) (some k) v = some (some m', r) → Reachable m'
  | remove (fuel : Nat) (m : HashMap) (k : Key) (m' : HashMap) (r : Nat) :
      Reachable m → hashmap_remove fuel (some m) (some k) = some (some m', r) → Reachable m'
  | clone (fuel : Nat) (src : HashMap) (arena : Arena) (m : HashMap) (a : Option Arena) :
      Reachable src → hashmap_clone fuel (some src) (some arena) = some (some m, a) →
      Reachable m

/-- Number of Live slots. -/
def live_count (m : HashMap) : Nat :=
  m.entries.countP (fun e => e.used && !e.tombstone)

/-- The representation invariant kept by every operation. -/
structure Inv (m : HashMap) : Prop where
  cap_pow2 : ∃ n, n ≤ 63 ∧ m.capacity = 2 ^ n
  len : m.entries.length = m.capacity
  tomb_used : ∀ x, (m.slot x).tombstone = true → (m.slot x).used = true
  hash_ok : ∀ x k, (m.slot x).used = true → (m.slot x).key = some k →
    (m.slot x).hash = hash_str k
  chain : ∀ x k, (m.slot x).used = true → (m.slot x).key = some k →
    ∃ j, slot_at m k j = x ∧ ∀ j', j' < j → (entry_at m k j').used = true
  uniq : ∀ x y k, (m.slot x).live → (m.slot x).key = some k →
    (m.slot y).live → (m.slot y).key = some k → x = y
  order : ∀ k j, (entry_at m k j).live → (entry_at m k j).key = some k →
    (∀ j', j' < j → ¬ ((entry_at m k j').live ∧ (entry_at m k j').key = some k)) →
    ∀ j', j' < j → (entry_at m k j').key ≠ some k
  count_eq : m.count = live_count m

/-! ## Definitions in the words of the specification -/

/-- The probe sequence in the words of the specification: `i_0 = s` and
`i_j = (i_{j-1} + j) & (C - 1)`, without any machine wrap-around. -/
def spec_probe (C s : Nat) : Nat → Nat
  | 0 => s
  | j + 1 => (spec_probe C s j + (j + 1)) &&& (C - 1)

/-- The 64-bit FNV-1a hash in the words of the specification: start from the
offset basis `14695981039346656037` and, for each byte `b` in order, set
`h := ((h xor b) * 1099511628211) mod 2 ^ 64`. -/
def spec_fnv1a_64 (s : Key) : Nat :=
  s.foldl (fun h b => ((h ^^^ b) * 1099511628211) % 2 ^ 64) 14695981039346656037

/-- Number of Empty (never-used) slots. -/
def empty_count (m : HashMap) : Nat :=
  m.entries.countP (fun e => !e.used)

/-- The relation `Steps m m'`: `m'` is reached from `m` by a sequence of
`hashmap_put` and `hashmap_remove` calls that returned. -/
inductive Steps (m : HashMap) : HashMap → Prop
  | refl : Steps m m
  | put (fuel : Nat) (m1 : HashMap) (k : Key) (v : Nat) (m2 : HashMap) (r : Nat) :
      Steps m m1 → hashmap_put fuel (some m1) (some k) v = some (some m2, r) → Steps m m2
  | remove (fuel : Nat) (m1 : HashMap) (k : Key) (m2 : HashMap) (r : Nat) :
      Steps m m1 → hashmap_remove fuel (some m1) (some k) = some (some m2, r) → Steps m m2

/-! ## Concrete maps used as inputs

Keys are the one-byte strings "a" = `[97]`, "b" = `[98]`, "c" = `[99]`. -/

/-- An arena of 4096 bytes, nothing allocated yet. -/
def arena0 : Arena := { size := 4096, used := 0 }

/-- The slot `hashmap_put` writes for key "a" and value `1`. -/
def entry_a : Entry :=
  { key := some [97], value := 1, hash := 4953267810257967366, used := true, tombstone := false }

/-- The slot `hashmap_put` writes for key "b" and value `2`. -/
def entry_b : Entry :=
  { key := some [98], value := 2, hash := 4953266710746339155, used := true, tombstone := false }

/-- The slot `hashmap_put` writes for key "c" and value `3`. -/
def entry_c : Entry :=
  { key := some [99], value := 3, hash := 4953265611234710944, used := true, tombstone := false }

/-- The map `hashmap_create(arena, 4)`. -/
def map4 : HashMap :=
  { entries := [emptyEntry, emptyEntry, emptyEntry, emptyEntry], capacity := 4, count := 0 }

/-- The map `map4` after `hashmap_put(m, "a", 1)`: "a" hashes to slot 2. -/
def map4_a : HashMap :=
  { entries := [emptyEntry, emptyEntry, entry_a, emptyEntry], capacity := 4, count := 1 }

/-- The map `map4_a` after `hashmap_put(m, "b", 2)`: "b" hashes to slot 3. -/
def map4_ab : HashMap :=
  { entries := [emptyEntry, emptyEntry, entry_a, entry_b], capacity := 4, count := 2 }

/-- The map `map4_ab` after `hashmap_remove(m, "a")`: slot 2 is a Tombstone. -/
def map4_b : HashMap :=
  { entries := [emptyEntry, emptyEntry, { entry_a with tombstone := true }, entry_b],
    capacity := 4, count := 1 }

/-- The map `map4_ab` after `hashmap_put(m, "c", 3)`: "c" hashes to slot 0. -/
def map4_abc : HashMap :=
  { entries := [entry_c, emptyEntry, entry_a, entry_b], capacity := 4, count := 3 }

/-- The map `map4_b` after `hashmap_put(m, "c", 3)`: "c" goes to the never-used
slot 0; the Tombstone of "a" stays in slot 2. -/
def map4_bc : HashMap :=
  { entries := [entry_c, emptyEntry, { entry_a with tombstone := true }, entry_b],
    capacity := 4, count := 2 }

/-- The map `hashmap_create(arena, 2)`. -/
def map2 : HashMap :=
  { entries := [emptyEntry, emptyEntry], capacity := 2, count := 0 }

/-- The map `map2` after `hashmap_put(m, "a", 1)`: slot 0. -/
def map2_a : HashMap :=
  { entries := [entry_a, emptyEntry], capacity := 2, count := 1 }

/-- The map `map2_a` after `hashmap_put(m, "b", 2)`: slot 1; no never-used slot is left. -/
def map2_ab : HashMap :=
  { entries := [entry_a, entry_b], capacity := 2, count := 2 }

/-- The map `map2_ab` after `hashmap_remove(m, "a")`: slot 0 is a Tombstone. -/
def map2_b : HashMap :=
  { entries := [{ entry_a with tombstone := true }, entry_b], capacity := 2, count := 1 }

/-! ## Theorems -/

theorem first_stop_some {stop : Nat → Bool} :
    ∀ (fuel j P : Nat), first_stop stop fuel j = some P →
      j ≤ P ∧ P < j + fuel ∧ stop P = true ∧ ∀ j', j ≤ j' → j' < P → stop j' = false := by
  intro fuel
  induction fuel with
  | zero => intro j P h; simp [first_stop] at h
  | succ fuel ih =>
    intro j P h
    unfold first_stop at h
    by_cases hs : stop j = true
    · simp [hs] at h
      subst h
      exact ⟨le_refl _, by omega, hs, fun j' h1 h2 => by omega⟩
    · simp [hs] at h
      obtain ⟨h1, h2, h3, h4⟩ := ih (j + 1) P h
      refine ⟨by omega, by omega, h3, ?_⟩
      intro j' hj hj'
      by_cases e : j' = j
      · subst e; simpa using hs
      · exact h4 j' (by omega) hj'

theorem first_stop_of {stop : Nat → Bool} :
    ∀ (fuel j P : Nat), j ≤ P → P < j + fuel → stop P = true →
      (∀ j', j ≤ j' → j' < P → stop j' = false) → first_stop stop fuel j = some P := by
  intro fuel
  induction fuel with
  | zero => intro j P h1 h2; omega
  | succ fuel ih =>
    intro j P h1 h2 h3 h4
    unfold first_stop
    by_cases e : P = j
    · subst e; simp [h3]
    · have : stop j = false := h4 j (le_refl _) (by omega)
      simp [this]
      exact ih (j + 1) P (by omega) (by omega) h3 (fun j' a b => h4 j' (by omega) b)

theorem first_stop_none {stop : Nat → Bool} :
    ∀ (fuel j : Nat), (∀ j', j ≤ j' → j' < j + fuel → stop j' = false) →
      first_stop stop fuel j = none := by
  intro fuel
  induction fuel with
  | zero => intro j _; rfl
  | succ fuel ih =>
    intro j h
    unfold first_stop
    have : stop j = false := h j (le_refl _) (by omega)
    simp [this]
    exact ih (j + 1) (fun j' a b => h j' (by omega) (by omega))

theorem get_loop_step (m : HashMap) (k : Key) (fuel j : Nat) :
    get_loop m.entries (hash_str k) k (mask_of m.capacity) (fuel + 1)
        (loop_state m k j).1 (loop_state m k j).2
      = if (entry_at m k j).used = false then some 0
        else if (entry_at m k j).holds k then some (entry_at m k j).value
        else get_loop m.entries (hash_str k) k (mask_of m.capacity) fuel
          (loop_state m k (j + 1)).1 (loop_state m k (j + 1)).2 := rfl

theorem put_loop_step (m : HashMap) (k : Key) (v fuel j : Nat) (ft : Option Nat) :
    put_loop m (hash_str k) k v (mask_of m.capacity) (fuel + 1)
        (loop_state m k j).1 (loop_state m k j).2 ft
      = if (entry_at m k j).used = false then
          some ({ m with
                entries := m.entries.set (ft.getD (slot_at m k j))
                  { key := some k, value := v, hash := hash_str k, used := true,
                    tombstone := false },
                count := (m.count + 1) % WORD }, 1)
        else if (entry_at m k j).tombstone = true ∧ ft = none then
          put_loop m (hash_str k) k v (mask_of m.capacity) fuel
            (loop_state m k (j + 1)).1 (loop_state m k (j + 1)).2 (some (slot_at m k j))
        else if (entry_at m k j).tombstone = false ∧ (entry_at m k j).holds k then
          some ({ m with entries :=
            m.entries.set (slot_at m k j) { entry_at m k j with value := v } }, 1)
        else put_loop m (hash_str k) k v (mask_of m.capacity) fuel
            (loop_state m k (j + 1)).1 (loop_state m k (j + 1)).2 ft := rfl

theorem remove_loop_step (m : HashMap) (k : Key) (fuel j : Nat) :
    remove_loop m (hash_str k) k (mask_of m.capacity) (fuel + 1)
        (loop_state m k j).1 (loop_state m k j).2
      = if (entry_at m k j).used = false ∧ (entry_at m k j).tombstone = false then some (m, 0)
        else if (entry_at m k j).used = true ∧ (entry_at m k j).tombstone = false ∧
            (entry_at m k j).holds k then
          some ({ m with
            entries := m.entries.set (slot_at m k j) { entry_at m k j with tombstone := true },
            count := (m.count + WORD - 1) % WORD }, 1)
        else remove_loop m (hash_str k) k (mask_of m.capacity) fuel
          (loop_state m k (j + 1)).1 (loop_state m k (j + 1)).2 := rfl

theorem first_stop_succ (stop : Nat → Bool) (fuel j : Nat) :
    first_stop stop (fuel + 1) j = if stop j then some j else first_stop stop fuel (j + 1) := rfl

theorem get_loop_eq (m : HashMap) (k : Key) :
    ∀ (fuel j : Nat),
      get_loop m.entries (hash_str k) k (mask_of m.capacity) fuel
        (loop_state m k j).1 (loop_state m k j).2
      = (first_stop (stop_get m k) fuel j).map (get_result m k) := by
  intro fuel
  induction fuel with
  | zero => intro j; rfl
  | succ fuel ih =>
    intro j
    rw [get_loop_step, ih (j + 1), first_stop_succ]
    unfold stop_get get_result
    by_cases hu : (entry_at m k j).used = false
    · simp [hu]
    · by_cases hh : (entry_at m k j).holds k
      · simp [hu, hh]
      · simp [hu, hh]

theorem remove_loop_eq (m : HashMap) (k : Key) :
    ∀ (fuel j : Nat),
      remove_loop m (hash_str k) k (mask_of m.capacity) fuel
        (loop_state m k j).1 (loop_state m k j).2
      = (first_stop (stop_remove m k) fuel j).map (remove_result m k) := by
  intro fuel
  induction fuel with
  | zero => intro j; rfl
  | succ fuel ih =>
    intro j
    rw [remove_loop_step, ih (j + 1), first_stop_succ]
    by_cases hu : (entry_at m k j).used = false ∧ (entry_at m k j).tombstone = false
    · have hs : stop_remove m k j = true := decide_eq_true (Or.inl hu)
      rw [if_pos hu, if_pos hs, Option.map_some', remove_result, if_pos hu]
    · by_cases hh : (entry_at m k j).used = true ∧ (entry_at m k j).tombstone = false ∧
            (entry_at m k j).holds k
      · have hs : stop_remove m k j = true := decide_eq_true (Or.inr hh)
        rw [if_neg hu, if_pos hh, if_pos hs, Option.map_some', remove_result, if_neg hu]
        rfl
      · have hs : ¬ stop_remove m k j = true := by
          unfold stop_remove
          rw [decide_eq_true_iff]
          rintro (h | h)
          · exact hu h
          · exact hh h
        rw [if_neg hu, if_neg hh, if_neg hs]

theorem first_tomb_succ (m : HashMap) (k : Key) (j d : Nat) :
    first_tomb m k j (d + 1) =
      if (entry_at m k j).tombstone = true then some (slot_at m k j)
      else first_tomb m k (j + 1) d := by
  cases j <;> rfl

theorem put_loop_eq (m : HashMap) (k : Key) (v : Nat) :
    ∀ (fuel j : Nat) (ft : Option Nat),
      put_loop m (hash_str k) k v (mask_of m.capacity) fuel
        (loop_state m k j).1 (loop_state m k j).2 ft
      = (first_stop (stop_put m k) fuel j).map
          (fun P => put_result m k v P (ft.or (first_tomb m k j (P - j)))) := by
  intro fuel
  induction fuel with
  | zero => intro j ft; rfl
  | succ fuel ih =>
    intro j ft
    rw [put_loop_step, first_stop_succ]
    by_cases hu : (entry_at m k j).used = false
    · have hs : stop_put m k j = true := decide_eq_true (Or.inl hu)
      rw [if_pos hu, if_pos hs, Option.map_some', put_result, if_pos hu, Nat.sub_self]
      cases ft <;> rfl
    · by_cases hh : (entry_at m k j).tombstone = false ∧ (entry_at m k j).holds k
      · have hs : stop_put m k j = true := decide_eq_true (Or.inr hh)
        have ht : ¬ ((entry_at m k j).tombstone = true ∧ ft = none) := by
          rintro ⟨h, -⟩; rw [hh.1] at h; exact Bool.false_ne_true h
        rw [if_neg hu, if_neg ht, if_pos hh, if_pos hs, Option.map_some', put_result, if_neg hu]
        rfl
      · have hs : stop_put m k j = false := by
          unfold stop_put
          rw [decide_eq_false_iff_not]
          rintro (h | h)
          · exact hu h
          · exact hh h
        have key : ∀ ft', (ft' = ft.or (if (entry_at m k j).tombstone = true
              then some (slot_at m k j) else none)) →
            Option.map (fun P => put_result m k v P (ft'.or (first_tomb m k (j + 1) (P - (j + 1)))))
              (first_stop (stop_put m k) fuel (j + 1)) =
            Option.map (fun P => put_result m k v P (ft.or (first_tomb m k j (P - j))))
              (first_stop (stop_put m k) fuel (j + 1)) := by
          intro ft' hft'
          cases hfs : first_stop (stop_put m k) fuel (j + 1) with
          | none => rfl
          | some P =>
            have hP := (first_stop_some fuel (j + 1) P hfs).1
            have e : P - j = (P - (j + 1)) + 1 := by omega
            simp only [Option.map_some', e, first_tomb_succ, hft']
            congr 1
            cases ft <;> by_cases ht : (entry_at m k j).tombstone = true <;> simp [ht, Option.or]
        by_cases ht : (entry_at m k j).tombstone = true ∧ ft = none
        · rw [if_neg hu, if_pos ht, hs, if_neg (by simp), ih (j + 1)]
          apply key
          simp [ht.1, ht.2]
        · rw [if_neg hu, if_neg ht, if_neg hh, hs, if_neg (by simp), ih (j + 1)]
          apply key
          cases ft with
          | none =>
            have : ¬ (entry_at m k j).tombstone = true := fun h => ht ⟨h, rfl⟩
            simp [this]
          | some y => simp

theorem getD_set (l : List Entry) (x y : Nat) (e : Entry) (hy : y < l.length) :
    (l.set y e).getD x emptyEntry = if x = y then e else l.getD x emptyEntry := by
  by_cases h : x = y
  · subst h; simp [List.getD_eq_getElem?_getD, hy]
  · have h' : y ≠ x := fun a => h a.symm
    simp [List.getD_eq_getElem?_getD, h, List.getElem?_set_ne h']

theorem countP_set (p : Entry → Bool) :
    ∀ (l : List Entry) (y : Nat) (e : Entry), y < l.length →
      (l.set y e).countP p + (if p (l.getD y emptyEntry) then 1 else 0)
        = l.countP p + (if p e then 1 else 0) := by
  intro l
  induction l with
  | nil => intro y e h; simp at h
  | cons a l ih =>
    intro y e h
    cases y with
    | zero =>
      simp only [List.set_cons_zero, List.countP_cons, List.getD_cons_zero]
      omega
    | succ y =>
      have := ih y e (by simpa using h)
      simp only [List.set_cons_succ, List.countP_cons, List.getD_cons_succ]
      omega

theorem mask_of_pow2 (n : Nat) (hn : n ≤ 63) : mask_of (2 ^ n) = 2 ^ n - 1 := by
  unfold mask_of WORD
  have h1 : 0 < 2 ^ n := Nat.pow_pos (by norm_num)
  have h2 : 2 ^ n ≤ 2 ^ 63 := Nat.pow_le_pow_right (by norm_num) hn
  have e : 2 ^ n + 2 ^ 64 - 1 = (2 ^ n - 1) + 2 ^ 64 := by omega
  rw [e, Nat.add_mod_right, Nat.mod_eq_of_lt]
  have : (2:Nat) ^ 63 < 2 ^ 64 := by norm_num
  omega

theorem probe_state_le (mask s : Nat) (hs : s ≤ mask) : ∀ j, (probe_state mask s j).1 ≤ mask := by
  intro j
  cases j with
  | zero => exact hs
  | succ j => exact Nat.and_le_right

theorem slot_at_lt (m : HashMap) (n : Nat) (hn : n ≤ 63) (hc : m.capacity = 2 ^ n)
    (k : Key) (j : Nat) : slot_at m k j < m.capacity := by
  have h1 : 0 < 2 ^ n := Nat.pow_pos (by norm_num)
  have hm : mask_of m.capacity = m.capacity - 1 := by rw [hc]; exact mask_of_pow2 n hn
  have := probe_state_le (mask_of m.capacity) (hash_str k &&& mask_of m.capacity)
    Nat.and_le_right j
  unfold slot_at loop_state
  omega

theorem hashmap_get_eq (fuel : Nat) (m : HashMap) (k : Key) :
    hashmap_get fuel (some m) (some k) = (first_stop (stop_get m k) fuel 0).map (get_result m k) :=
  get_loop_eq m k fuel 0

theorem hashmap_put_eq (fuel : Nat) (m : HashMap) (k : Key) (v : Nat) :
    hashmap_put fuel (some m) (some k) v =
      (first_stop (stop_put m k) fuel 0).map
        (fun P => (some (put_result m k v P (first_tomb m k 0 P)).1,
                   (put_result m k v P (first_tomb m k 0 P)).2)) := by
  have h := put_loop_eq m k v fuel 0 none
  show Option.map _ (put_loop m (hash_str k) k v (mask_of m.capacity) fuel
    (loop_state m k 0).1 (loop_state m k 0).2 none) = _
  rw [h, Option.map_map]
  rfl

theorem hashmap_remove_eq (fuel : Nat) (m : HashMap) (k : Key) :
    hashmap_remove fuel (some m) (some k) =
      (first_stop (stop_remove m k) fuel 0).map
        (fun P => (some (remove_result m k P).1, (remove_result m k P).2)) := by
  have h := remove_loop_eq m k fuel 0
  show Option.map _ (remove_loop m (hash_str k) k (mask_of m.capacity) fuel
    (loop_state m k 0).1 (loop_state m k 0).2) = _
  rw [h, Option.map_map]
  rfl

theorem first_tomb_none (m : HashMap) (k : Key) :
    ∀ (d j : Nat), first_tomb m k j d = none →
      ∀ j', j ≤ j' → j' < j + d → (entry_at m k j').tombstone = false := by
  intro d
  induction d with
  | zero => intro j _ j' h1 h2; omega
  | succ d ih =>
    intro j h j' h1 h2
    rw [first_tomb_succ] at h
    by_cases ht : (entry_at m k j).tombstone = true
    · rw [if_pos ht] at h; cases h
    · rw [if_neg ht] at h
      by_cases e : j' = j
      · subst e; simpa using ht
      · exact ih (j + 1) h j' (by omega) (by omega)

theorem first_tomb_some (m : HashMap) (k : Key) :
    ∀ (d j y : Nat), first_tomb m k j d = some y →
      ∃ t, j ≤ t ∧ t < j + d ∧ slot_at m k t = y ∧ (entry_at m k t).tombstone = true ∧
        ∀ j', j ≤ j' → j' < t → (entry_at m k j').tombstone = false := by
  intro d
  induction d with
  | zero => intro j y h; cases j <;> cases h
  | succ d ih =>
    intro j y h
    rw [first_tomb_succ] at h
    by_cases ht : (entry_at m k j).tombstone = true
    · rw [if_pos ht] at h
      refine ⟨j, le_refl _, by omega, by simpa using h, ht, fun j' a b => by omega⟩
    · rw [if_neg ht] at h
      obtain ⟨t, h1, h2, h3, h4, h5⟩ := ih (j + 1) y h
      refine ⟨t, by omega, by omega, h3, h4, ?_⟩
      intro j' a b
      by_cases e : j' = j
      · subst e; simpa using ht
      · exact h5 j' (by omega) b

theorem slot_used_lt (m : HashMap) (x : Nat) (h : (m.slot x).used = true) :
    x < m.entries.length := by
  by_contra hx
  have : m.slot x = emptyEntry := by
    unfold HashMap.slot
    rw [List.getD_eq_default _ _ (by omega)]
  rw [this] at h
  cases h

theorem slot_set_value (m : HashMap) (x v x' : Nat) (hx : x < m.entries.length) :
    (set_value m x v).slot x' = if x' = x then { m.slot x with value := v } else m.slot x' := by
  unfold set_value HashMap.slot
  exact getD_set m.entries x' x _ hx

theorem slot_insert_at (m : HashMap) (y : Nat) (k : Key) (v x' : Nat)
    (hy : y < m.entries.length) :
    (insert_at m y k v).slot x' =
      if x' = y then
        { key := some k, value := v, hash := hash_str k, used := true, tombstone := false }
      else m.slot x' := by
  unfold insert_at HashMap.slot
  exact getD_set m.entries x' y _ hy

theorem slot_tomb_at (m : HashMap) (x x' : Nat) (hx : x < m.entries.length) :
    (tomb_at m x).slot x' = if x' = x then { m.slot x with tombstone := true } else m.slot x' := by
  unfold tomb_at HashMap.slot
  exact getD_set m.entries x' x _ hx

theorem slot_at_set_value (m : HashMap) (x v : Nat) (k : Key) (j : Nat) :
    slot_at (set_value m x v) k j = slot_at m k j := rfl

theorem slot_at_insert_at (m : HashMap) (y : Nat) (k' : Key) (v : Nat) (k : Key) (j : Nat) :
    slot_at (insert_at m y k' v) k j = slot_at m k j := rfl

theorem slot_at_tomb_at (m : HashMap) (x : Nat) (k : Key) (j : Nat) :
    slot_at (tomb_at m x) k j = slot_at m k j := rfl

/-- Two maps of equal capacity whose slots agree on everything but the value
satisfy the same invariant (the count being given separately). -/
theorem Inv_of_same_shape (m m' : HashMap) (hI : Inv m)
    (hcap : m'.capacity = m.capacity) (hlen : m'.entries.length = m.entries.length)
    (hcount : m'.count = live_count m')
    (hs : ∀ x, (m'.slot x).key = (m.slot x).key ∧ (m'.slot x).hash = (m.slot x).hash ∧
      (m'.slot x).used = (m.slot x).used ∧ (m'.slot x).tombstone = (m.slot x).tombstone) :
    Inv m' := by
  have hsa : ∀ k j, slot_at m' k j = slot_at m k j := by
    intro k j; unfold slot_at loop_state; rw [hcap]
  have hea : ∀ k j, (entry_at m' k j).key = (entry_at m k j).key ∧
      (entry_at m' k j).hash = (entry_at m k j).hash ∧
      (entry_at m' k j).used = (entry_at m k j).used ∧
      (entry_at m' k j).tombstone = (entry_at m k j).tombstone := by
    intro k j; unfold entry_at; rw [hsa]; exact hs _
  refine ⟨?_, ?_, ?_, ?_, ?_, ?_, ?_, hcount⟩
  · rw [hcap]; exact hI.cap_pow2
  · rw [hlen, hcap]; exact hI.len
  · intro x h
    rw [(hs x).2.2.2] at h; rw [(hs x).2.2.1]; exact hI.tomb_used x h
  · intro x k h1 h2
    rw [(hs x).2.2.1] at h1; rw [(hs x).1] at h2; rw [(hs x).2.1]; exact hI.hash_ok x k h1 h2
  · intro x k h1 h2
    rw [(hs x).2.2.1] at h1; rw [(hs x).1] at h2
    obtain ⟨j, hj, hb⟩ := hI.chain x k h1 h2
    refine ⟨j, by rw [hsa]; exact hj, ?_⟩
    intro j' hj'
    rw [(hea k j').2.2.1]; exact hb j' hj'
  · intro x y k h1 h2 h3 h4
    unfold Entry.live at h1 h3
    rw [(hs x).2.2.1, (hs x).2.2.2] at h1
    rw [(hs y).2.2.1, (hs y).2.2.2] at h3
    rw [(hs x).1] at h2; rw [(hs y).1] at h4
    exact hI.uniq x y k h1 h2 h3 h4
  · intro k j h1 h2 h3 j' hj'
    unfold Entry.live at h1 h3
    rw [(hea k j).2.2.1, (hea k j).2.2.2] at h1
    rw [(hea k j).1] at h2
    rw [(hea k j').1]
    refine hI.order k j h1 h2 ?_ j' hj'
    intro j'' hj''
    have := h3 j'' hj''
    rw [(hea k j'').2.2.1, (hea k j'').2.2.2, (hea k j'').1] at this
    exact this

theorem live_count_le (m : HashMap) : live_count m ≤ m.entries.length :=
  List.countP_le_length _

theorem word_gt (n : Nat) (hn : n ≤ 63) : 2 ^ n < WORD := by
  unfold WORD
  exact Nat.pow_lt_pow_right (by norm_num) (by omega)

theorem Inv_set_value (m : HashMap) (x v : Nat) (hI : Inv m) (hx : x < m.entries.length) :
    Inv (set_value m x v) := by
  have hs : ∀ x', ((set_value m x v).slot x').key = (m.slot x').key ∧
      ((set_value m x v).slot x').hash = (m.slot x').hash ∧
      ((set_value m x v).slot x').used = (m.slot x').used ∧
      ((set_value m x v).slot x').tombstone = (m.slot x').tombstone := by
    intro x'
    rw [slot_set_value m x v x' hx]
    by_cases e : x' = x
    · subst e; simp
    · simp [e]
  refine Inv_of_same_shape m _ hI rfl (by simp [set_value]) ?_ hs
  have hc := countP_set (fun e => e.used && !e.tombstone) m.entries x
    { m.slot x with value := v } hx
  have : live_count (set_value m x v) = live_count m := by
    unfold live_count set_value
    simp only [HashMap.slot] at hc ⊢
    omega
  rw [this]
  exact hI.count_eq

theorem Inv_tomb_at (m : HashMap) (x : Nat) (hI : Inv m) (hl : (m.slot x).live) :
    Inv (tomb_at m x) := by
  have hx : x < m.entries.length := slot_used_lt m x hl.1
  have hk : ∀ x', ((tomb_at m x).slot x').key = (m.slot x').key := by
    intro x'; rw [slot_tomb_at m x x' hx]; by_cases e : x' = x
    · subst e; simp
    · simp [e]
  have hh : ∀ x', ((tomb_at m x).slot x').hash = (m.slot x').hash := by
    intro x'; rw [slot_tomb_at m x x' hx]; by_cases e : x' = x
    · subst e; simp
    · simp [e]
  have hu : ∀ x', ((tomb_at m x).slot x').used = (m.slot x').used := by
    intro x'; rw [slot_tomb_at m x x' hx]; by_cases e : x' = x
    · subst e; simp
    · simp [e]
  have ht : ∀ x', ((tomb_at m x).slot x').tombstone =
      if x' = x then true else (m.slot x').tombstone := by
    intro x'; rw [slot_tomb_at m x x' hx]; by_cases e : x' = x
    · subst e; simp
    · simp [e]
  have hlive : ∀ x', ((tomb_at m x).slot x').live ↔ ((m.slot x').live ∧ x' ≠ x) := by
    intro x'
    unfold Entry.live
    rw [hu, ht]
    by_cases e : x' = x
    · simp [e]
    · simp [e]
  have hea : ∀ k j, entry_at (tomb_at m x) k j = (tomb_at m x).slot (slot_at m k j) := by
    intro k j; rfl
  refine ⟨hI.cap_pow2, ?_, ?_, ?_, ?_, ?_, ?_, ?_⟩
  · have := hI.len
    simpa [tomb_at] using this
  · intro x' h
    rw [hu]
    rw [ht] at h
    by_cases e : x' = x
    · subst e; exact hl.1
    · rw [if_neg e] at h; exact hI.tomb_used x' h
  · intro x' k h1 h2
    rw [hu] at h1; rw [hk] at h2; rw [hh]; exact hI.hash_ok x' k h1 h2
  · intro x' k h1 h2
    rw [hu] at h1; rw [hk] at h2
    obtain ⟨j, hj, hb⟩ := hI.chain x' k h1 h2
    refine ⟨j, hj, ?_⟩
    intro j' hj'
    rw [hea, hu]; exact hb j' hj'
  · intro a b k h1 h2 h3 h4
    rw [hlive] at h1 h3
    rw [hk] at h2 h4
    exact hI.uniq a b k h1.1 h2 h3.1 h4
  · intro k j h1 h2 h3 j' hj'
    rw [hea, hlive] at h1
    rw [hea, hk] at h2
    rw [hea, hk]
    have hxk : (m.slot x).key ≠ some k := by
      intro hxk
      exact h1.2 (hI.uniq _ _ k h1.1 h2 hl hxk)
    refine hI.order k j h1.1 h2 ?_ j' hj'
    intro j'' hj'' hc
    by_cases e : slot_at m k j'' = x
    · apply hxk
      have := hc.2
      unfold entry_at at this
      rw [e] at this
      exact this
    · apply h3 j'' hj''
      rw [hea, hlive, hk]
      exact ⟨⟨hc.1, e⟩, hc.2⟩
  · have hc := countP_set (fun e => e.used && !e.tombstone) m.entries x
      { m.slot x with tombstone := true } hx
    have hp : (fun e : Entry => e.used && !e.tombstone) (m.entries.getD x emptyEntry) = true := by
      have := hl
      unfold Entry.live HashMap.slot at this
      show ((m.entries.getD x emptyEntry).used && !(m.entries.getD x emptyEntry).tombstone) = true
      rw [this.1, this.2]; rfl
    have hle := live_count_le m
    obtain ⟨n, hn, hcap⟩ := hI.cap_pow2
    have hw := word_gt n hn
    have hlen := hI.len
    have hcnt := hI.count_eq
    have e1 : live_count (tomb_at m x) + 1 = live_count m := by
      unfold live_count tomb_at
      simp only [hp, if_true] at hc
      simp only [Bool.and_false, Bool.not_true] at hc
      simpa using hc
    show (m.count + WORD - 1) % WORD = live_count (tomb_at m x)
    have e2 : m.count + WORD - 1 = (m.count - 1) + WORD := by omega
    rw [e2, Nat.add_mod_right, Nat.mod_eq_of_lt (by omega)]
    omega

theorem Inv_insert_at (m : HashMap) (k : Key) (v t : Nat) (hI : Inv m)
    (hbefore : ∀ j', j' < t → (entry_at m k j').used = true ∧
      (entry_at m k j').tombstone = false ∧ (entry_at m k j').key ≠ some k)
    (hy : ¬ (m.slot (slot_at m k t)).live)
    (hno : ∀ x, (m.slot x).live → (m.slot x).key ≠ some k) :
    Inv (insert_at m (slot_at m k t) k v) := by
  obtain ⟨n, hn, hcap⟩ := hI.cap_pow2
  have hlen := hI.len
  have hyl : slot_at m k t < m.entries.length := by
    rw [hlen]; exact slot_at_lt m n hn hcap k t
  generalize hyd : slot_at m k t = y at hy hyl
  have hs : ∀ x', (insert_at m y k v).slot x' =
      if x' = y then
        { key := some k, value := v, hash := hash_str k, used := true, tombstone := false }
      else m.slot x' := fun x' => slot_insert_at m y k v x' hyl
  have hsy : (insert_at m y k v).slot y =
      { key := some k, value := v, hash := hash_str k, used := true, tombstone := false } := by
    rw [hs, if_pos rfl]
  have hsn : ∀ x', x' ≠ y → (insert_at m y k v).slot x' = m.slot x' := by
    intro x' e; rw [hs, if_neg e]
  have hea : ∀ k' j, entry_at (insert_at m y k v) k' j = (insert_at m y k v).slot (slot_at m k' j) :=
    fun _ _ => rfl
  have hum : ∀ a, (m.slot a).used = true → ((insert_at m y k v).slot a).used = true := by
    intro a h
    by_cases e : a = y
    · subst e; rw [hsy]
    · rw [hsn a e]; exact h
  refine ⟨hI.cap_pow2, ?_, ?_, ?_, ?_, ?_, ?_, ?_⟩
  · simpa [insert_at] using hlen
  · intro x' h
    by_cases e : x' = y
    · subst e; rw [hsy] at h; cases h
    · rw [hsn x' e] at h ⊢; exact hI.tomb_used x' h
  · intro x' k' h1 h2
    by_cases e : x' = y
    · subst e; rw [hsy] at h2 ⊢
      simp only [Option.some.injEq] at h2
      subst h2; rfl
    · rw [hsn x' e] at h1 h2 ⊢; exact hI.hash_ok x' k' h1 h2
  · intro x' k' h1 h2
    by_cases e : x' = y
    · subst e; rw [hsy] at h2
      simp only [Option.some.injEq] at h2
      subst h2
      refine ⟨t, hyd, ?_⟩
      intro j' hj'
      rw [hea]; exact hum _ (hbefore j' hj').1
    · rw [hsn x' e] at h1 h2
      obtain ⟨j, hj, hb⟩ := hI.chain x' k' h1 h2
      refine ⟨j, hj, ?_⟩
      intro j' hj'
      rw [hea]; exact hum _ (hb j' hj')
  · intro a b k' h1 h2 h3 h4
    by_cases ea : a = y
    · by_cases eb : b = y
      · rw [ea, eb]
      · exfalso
        rw [ea, hsy] at h2
        simp only [Option.some.injEq] at h2
        subst h2
        rw [hsn b eb] at h3 h4
        exact hno b h3 h4
    · by_cases eb : b = y
      · exfalso
        rw [eb, hsy] at h4
        simp only [Option.some.injEq] at h4
        subst h4
        rw [hsn a ea] at h1 h2
        exact hno a h1 h2
      · rw [hsn a ea] at h1 h2
        rw [hsn b eb] at h3 h4
        exact hI.uniq a b k' h1 h2 h3 h4
  · intro k' j h1 h2 h3 j' hj'
    rw [hea] at h1 h2 ⊢
    by_cases e : slot_at m k' j = y
    · rw [e, hsy] at h2
      simp only [Option.some.injEq] at h2
      subst h2
      have hne : ∀ j'', j'' < j → slot_at m k j'' ≠ y := by
        intro j'' hj'' e'
        apply h3 j'' hj''
        rw [hea, e', hsy]
        exact ⟨⟨rfl, rfl⟩, rfl⟩
      have hjt : j ≤ t := by
        by_contra hc
        exact hne t (by omega) hyd
      rw [hsn _ (hne j' hj')]
      exact (hbefore j' (by omega)).2.2
    · rw [hsn _ e] at h1 h2
      have hkk : k' ≠ k := by
        intro ek; subst ek
        exact hno _ h1 h2
      have hold : ∀ j'', j'' < j → (entry_at m k' j'').key ≠ some k' := by
        refine hI.order k' j h1 h2 ?_
        intro j'' hj'' hc
        by_cases e' : slot_at m k' j'' = y
        · apply hy
          have := hc.1
          unfold entry_at at this
          rw [e'] at this
          exact this
        · apply h3 j'' hj''
          rw [hea, hsn _ e']
          exact hc
      by_cases e' : slot_at m k' j' = y
      · rw [e', hsy]
        simp only [ne_eq, Option.some.injEq]
        exact fun h => hkk h.symm
      · rw [hsn _ e']
        exact hold j' hj'
  · have hc := countP_set (fun e => e.used && !e.tombstone) m.entries y
      { key := some k, value := v, hash := hash_str k, used := true, tombstone := false } hyl
    have hp : (fun e : Entry => e.used && !e.tombstone) (m.entries.getD y emptyEntry) = false := by
      have h0 : ¬ ((m.entries.getD y emptyEntry).used = true ∧
          (m.entries.getD y emptyEntry).tombstone = false) := hy
      show ((m.entries.getD y emptyEntry).used && !(m.entries.getD y emptyEntry).tombstone) = false
      cases hu : (m.entries.getD y emptyEntry).used <;>
        cases ht : (m.entries.getD y emptyEntry).tombstone <;> simp_all
    have hle := live_count_le (insert_at m y k v)
    have hl' : (insert_at m y k v).entries.length = m.entries.length := by simp [insert_at]
    have hw := word_gt n hn
    have hcnt := hI.count_eq
    have e1 : live_count (insert_at m y k v) = live_count m + 1 := by
      unfold live_count insert_at
      rw [hp] at hc
      simpa using hc
    show (m.count + 1) % WORD = live_count (insert_at m y k v)
    rw [Nat.mod_eq_of_lt (by omega)]
    omega

theorem next_pow2_loop_succ (x fuel p : Nat) :
    next_pow2_loop x (fuel + 1) p =
      if p < x then next_pow2_loop x fuel ((p <<< 1) % WORD) else some p := rfl

theorem next_pow2_loop_zero (x : Nat) (hx : 0 < x) : ∀ fuel, next_pow2_loop x fuel 0 = none := by
  intro fuel
  induction fuel with
  | zero => rfl
  | succ fuel ih =>
    rw [next_pow2_loop_succ, if_pos hx]
    simpa using ih

theorem shift_pow (i : Nat) (hi : i < 63) : ((2 ^ i) <<< 1) % WORD = 2 ^ (i + 1) := by
  rw [Nat.shiftLeft_eq, pow_one, ← pow_succ]
  exact Nat.mod_eq_of_lt (word_gt (i + 1) (by omega))

theorem shift_pow_top : ((2 ^ 63) <<< 1) % WORD = 0 := by
  unfold WORD; rw [Nat.shiftLeft_eq]; norm_num

/-- Whatever `next_pow2` returns from `p = 2 ^ i` is the least power of two that
is at least `x` and at least `2 ^ i`. -/
theorem next_pow2_loop_some (x : Nat) :
    ∀ (fuel i c : Nat), i ≤ 63 → next_pow2_loop x fuel (2 ^ i) = some c →
      ∃ n, n ≤ 63 ∧ c = 2 ^ n ∧ x ≤ 2 ^ n ∧ i ≤ n ∧ (n = i ∨ 2 ^ (n - 1) < x) := by
  intro fuel
  induction fuel with
  | zero => intro i c _ h; cases h
  | succ fuel ih =>
    intro i c hi h
    rw [next_pow2_loop_succ] at h
    by_cases hlt : 2 ^ i < x
    · rw [if_pos hlt] at h
      by_cases e : i = 63
      · subst e
        rw [shift_pow_top, next_pow2_loop_zero x (by omega)] at h
        cases h
      · rw [shift_pow i (by omega)] at h
        obtain ⟨n, h1, h2, h3, h4, h5⟩ := ih (i + 1) c (by omega) h
        refine ⟨n, h1, h2, h3, by omega, ?_⟩
        rcases h5 with h5 | h5
        · right; subst h5; simpa using hlt
        · right; exact h5
    · rw [if_neg hlt] at h
      cases h
      exact ⟨i, hi, rfl, by omega, le_refl _, Or.inl rfl⟩

theorem next_pow2_loop_terminates (x : Nat) (hx : x ≤ 2 ^ 63) :
    ∀ (fuel i : Nat), i ≤ 63 → 64 ≤ i + fuel → ∃ c, next_pow2_loop x fuel (2 ^ i) = some c := by
  intro fuel
  induction fuel with
  | zero => intro i h1 h2; omega
  | succ fuel ih =>
    intro i h1 h2
    rw [next_pow2_loop_succ]
    by_cases hlt : 2 ^ i < x
    · rw [if_pos hlt]
      have hi : i < 63 := by
        by_contra hc
        have : i = 63 := by omega
        subst this; omega
      rw [shift_pow i hi]
      exact ih (i + 1) (by omega) (by omega)
    · rw [if_neg hlt]; exact ⟨_, rfl⟩

theorem next_pow2_loop_diverges (x : Nat) (hx : 2 ^ 63 < x) :
    ∀ (fuel i : Nat), i ≤ 63 → next_pow2_loop x fuel (2 ^ i) = none := by
  intro fuel
  induction fuel with
  | zero => intro i _; rfl
  | succ fuel ih =>
    intro i hi
    have hlt : 2 ^ i < x := by
      have : 2 ^ i ≤ 2 ^ 63 := Nat.pow_le_pow_right (by norm_num) hi
      omega
    rw [next_pow2_loop_succ, if_pos hlt]
    by_cases e : i = 63
    · subst e
      rw [shift_pow_top]
      exact next_pow2_loop_zero x (by omega) fuel
    · rw [shift_pow i (by omega)]
      exact ih (i + 1) (by omega)

theorem next_pow2_some (fuel x c : Nat) (h : next_pow2 fuel x = some c) :
    ∃ n, n ≤ 63 ∧ c = 2 ^ n ∧ x ≤ 2 ^ n ∧ (n = 0 ∨ 2 ^ (n - 1) < x) := by
  have h' : next_pow2_loop x fuel (2 ^ 0) = some c := h
  obtain ⟨n, h1, h2, h3, _, h5⟩ := next_pow2_loop_some x fuel 0 c (by omega) h'
  exact ⟨n, h1, h2, h3, h5⟩

theorem next_pow2_terminates (fuel x : Nat) (hx : x ≤ 2 ^ 63) (hf : 64 ≤ fuel) :
    ∃ c, next_pow2 fuel x = some c :=
  next_pow2_loop_terminates x hx fuel 0 (by omega) (by omega)

theorem next_pow2_diverges (fuel x : Nat) (hx : 2 ^ 63 < x) : next_pow2 fuel x = none :=
  next_pow2_loop_diverges x hx fuel 0 (by omega)

/-- A power of two is its own `next_pow2`. -/
theorem next_pow2_of_pow2 (fuel n c : Nat) (h : next_pow2 fuel (2 ^ n) = some c) :
    c = 2 ^ n := by
  obtain ⟨n', _, h2, h3, h4⟩ := next_pow2_some fuel (2 ^ n) c h
  have h3' : n ≤ n' := (Nat.pow_le_pow_iff_right (by norm_num)).1 h3
  rcases h4 with h4 | h4
  · have : n = 0 := by omega
    rw [h2, h4, this]
  · have : n' - 1 < n := (Nat.pow_lt_pow_iff_right (by norm_num)).1 h4
    have : n' = n := by omega
    rw [h2, this]

theorem hashmap_create_some (fuel : Nat) (a : Arena) (r : Nat) (m : HashMap) (a' : Option Arena)
    (h : hashmap_create fuel (some a) r = some (some m, a')) :
    ∃ c, (if r ≠ 0 then next_pow2 fuel r else some 16) = some c ∧
      m = { entries := List.replicate c emptyEntry, capacity := c, count := 0 } := by
  unfold hashmap_create at h
  simp only at h
  split at h
  · cases h
  · split at h
    · cases h
    · rename_i cap hcap
      split at h
      · cases h
      · split at h
        · simp only [Option.some.injEq, Prod.mk.injEq] at h
          exact ⟨cap, hcap, h.1.symm⟩
        · cases h

theorem hashmap_create_cap (fuel : Nat) (a : Arena) (r : Nat) (m : HashMap) (a' : Option Arena)
    (h : hashmap_create fuel (some a) r = some (some m, a')) :
    ∃ n, n ≤ 63 ∧ m = { entries := List.replicate (2 ^ n) emptyEntry, capacity := 2 ^ n, count := 0 } ∧
      (r = 0 → n = 4) ∧ (r ≠ 0 → r ≤ 2 ^ n ∧ (n = 0 ∨ 2 ^ (n - 1) < r)) := by
  obtain ⟨c, hc, hm⟩ := hashmap_create_some fuel a r m a' h
  by_cases hr : r = 0
  · rw [if_neg (by simpa using hr)] at hc
    cases hc
    exact ⟨4, by omega, hm, fun _ => rfl, fun h' => absurd hr h'⟩
  · rw [if_pos hr] at hc
    obtain ⟨n, h1, h2, h3, h4⟩ := next_pow2_some fuel r c hc
    subst h2
    exact ⟨n, h1, hm, fun h' => absurd h' hr, fun _ => ⟨h3, h4⟩⟩

theorem slot_replicate (c x : Nat) :
    HashMap.slot { entries := List.replicate c emptyEntry, capacity := c, count := 0 } x
      = emptyEntry := by
  unfold HashMap.slot
  by_cases h : x < c
  · simp [List.getD_eq_getElem?_getD, List.getElem?_replicate, h]
  · simp [List.getD_eq_getElem?_getD, List.getElem?_replicate, h]

theorem Inv_fresh (n : Nat) (hn : n ≤ 63) :
    Inv { entries := List.replicate (2 ^ n) emptyEntry, capacity := 2 ^ n, count := 0 } := by
  have hs := slot_replicate (2 ^ n)
  have he : ∀ k j, entry_at
      { entries := List.replicate (2 ^ n) emptyEntry, capacity := 2 ^ n, count := 0 } k j
      = emptyEntry := fun k j => hs _
  refine ⟨⟨n, hn, rfl⟩, by simp, ?_, ?_, ?_, ?_, ?_, ?_⟩
  · intro x h; rw [hs] at h; cases h
  · intro x k h; rw [hs] at h; cases h
  · intro x k h; rw [hs] at h; cases h
  · intro x y k h; rw [hs] at h; cases h.1
  · intro k j h; rw [he] at h; cases h.1
  · show 0 = List.countP _ (List.replicate (2 ^ n) emptyEntry)
    rw [List.countP_replicate]
    simp [emptyEntry]

theorem copy_entries_length (src : List Entry) :
    ∀ (n : Nat) (dst : List Entry), (copy_entries src n dst).length = dst.length := by
  intro n
  induction n with
  | zero => intro dst; rfl
  | succ n ih => intro dst; simp [copy_entries, ih]

theorem copy_entries_get (src : List Entry) :
    ∀ (n : Nat) (dst : List Entry) (i : Nat), i < dst.length →
      (copy_entries src n dst).getD i emptyEntry =
        if i < n then src.getD i emptyEntry else dst.getD i emptyEntry := by
  intro n
  induction n with
  | zero => intro dst i _; simp [copy_entries]
  | succ n ih =>
    intro dst i hi
    unfold copy_entries
    by_cases hn : n < dst.length
    · rw [getD_set _ _ _ _ (by rw [copy_entries_length]; exact hn)]
      by_cases e : i = n
      · subst e; simp
      · rw [if_neg e, ih dst i hi]
        by_cases h : i < n
        · rw [if_pos h, if_pos (by omega)]
        · rw [if_neg h, if_neg (by omega)]
    · have : (copy_entries src n dst).set n (src.getD n emptyEntry) = copy_entries src n dst := by
        apply List.set_eq_of_length_le
        rw [copy_entries_length]; omega
      rw [this, ih dst i hi]
      have h1 : i < n := by omega
      rw [if_pos h1, if_pos (by omega)]

theorem copy_entries_all (src dst : List Entry) (h : dst.length = src.length) :
    copy_entries src src.length dst = src := by
  apply List.ext_getElem
  · rw [copy_entries_length, h]
  · intro i h1 h2
    have := copy_entries_get src src.length dst i (by omega)
    rw [if_pos h2] at this
    rw [List.getD_eq_getElem _ _ h1, List.getD_eq_getElem _ _ h2] at this
    exact this

theorem hashmap_clone_eq (fuel : Nat) (s : HashMap) (a : Arena) (m : HashMap)
    (a' : Option Arena) (hI : Inv s)
    (h : hashmap_clone fuel (some s) (some a) = some (some m, a')) : m = s := by
  unfold hashmap_clone at h
  simp only at h
  split at h
  · cases h
  · cases h
  · rename_i m0 a0 hc
    simp only [Option.some.injEq, Prod.mk.injEq] at h
    obtain ⟨c, hc1, hm0⟩ := hashmap_create_some fuel a s.capacity m0 a0 hc
    obtain ⟨n, hn, hcap⟩ := hI.cap_pow2
    have hne : s.capacity ≠ 0 := by
      rw [hcap]; exact (Nat.pow_pos (by norm_num)).ne'
    rw [if_pos hne, hcap] at hc1
    have hcn := next_pow2_of_pow2 fuel n c hc1
    rw [← h.1, hm0]
    have hlen := hI.len
    have : copy_entries s.entries s.capacity (List.replicate c emptyEntry) = s.entries := by
      rw [← hlen]
      apply copy_entries_all
      rw [List.length_replicate, hcn, hlen, hcap]
    simp only [this]
    rw [hcn, ← hcap]

theorem stop_put_false (m : HashMap) (k : Key) (j : Nat) (h : stop_put m k j = false) :
    (entry_at m k j).used = true ∧
      ¬ ((entry_at m k j).tombstone = false ∧ (entry_at m k j).holds k) := by
  unfold stop_put at h
  rw [decide_eq_false_iff_not, not_or] at h
  exact ⟨by simpa using h.1, h.2⟩

theorem stop_put_true (m : HashMap) (k : Key) (j : Nat) (h : stop_put m k j = true) :
    (entry_at m k j).used = false ∨
      ((entry_at m k j).tombstone = false ∧ (entry_at m k j).holds k) := by
  unfold stop_put at h
  exact of_decide_eq_true h

theorem stop_get_false (m : HashMap) (k : Key) (j : Nat) (h : stop_get m k j = false) :
    (entry_at m k j).used = true ∧ ¬ (entry_at m k j).holds k := by
  unfold stop_get at h
  rw [decide_eq_false_iff_not, not_or] at h
  exact ⟨by simpa using h.1, h.2⟩

theorem stop_remove_false (m : HashMap) (k : Key) (j : Nat) (h : stop_remove m k j = false) :
    ¬ ((entry_at m k j).used = false ∧ (entry_at m k j).tombstone = false) ∧
      ¬ ((entry_at m k j).used = true ∧ (entry_at m k j).tombstone = false ∧
        (entry_at m k j).holds k) := by
  unfold stop_remove at h
  rw [decide_eq_false_iff_not, not_or] at h
  exact h

theorem stop_remove_true (m : HashMap) (k : Key) (j : Nat) (h : stop_remove m k j = true) :
    ((entry_at m k j).used = false ∧ (entry_at m k j).tombstone = false) ∨
      ((entry_at m k j).used = true ∧ (entry_at m k j).tombstone = false ∧
        (entry_at m k j).holds k) := by
  unfold stop_remove at h
  exact of_decide_eq_true h

/-- In a map satisfying the invariant, a used slot holds key `k` exactly when its
key field is `k`. -/
theorem holds_iff_key (m : HashMap) (hI : Inv m) (x : Nat) (k : Key)
    (hu : (m.slot x).used = true) : (m.slot x).holds k ↔ (m.slot x).key = some k :=
  ⟨fun h => h.2, fun h => ⟨hI.hash_ok x k hu h, h⟩⟩

/-- If the put loop for `k` runs into a never-used slot in round `P`, no Live slot
holds `k`. -/
theorem no_live_of_unused (m : HashMap) (hI : Inv m) (k : Key) (P : Nat)
    (hu : (entry_at m k P).used = false)
    (hb : ∀ j', j' < P → stop_put m k j' = false) :
    ∀ x, (m.slot x).live → (m.slot x).key ≠ some k := by
  intro x hl hk
  obtain ⟨j, hj, hbj⟩ := hI.chain x k hl.1 hk
  rcases Nat.lt_trichotomy j P with h | h | h
  · have := (stop_put_false m k j (hb j h)).2
    apply this
    unfold entry_at
    rw [hj]
    exact ⟨hl.2, hI.hash_ok x k hl.1 hk, hk⟩
  · subst h
    unfold entry_at at hu
    rw [hj, hl.1] at hu
    cases hu
  · have := hbj P h
    rw [hu] at this
    cases this

theorem put_spec (fuel : Nat) (m : HashMap) (k : Key) (v : Nat) (m' : HashMap) (r : Nat)
    (h : hashmap_put fuel (some m) (some k) v = some (some m', r)) :
    r = 1 ∧ ∃ P, P < fuel ∧ (∀ j', j' < P → stop_put m k j' = false) ∧
      (((entry_at m k P).live ∧ (entry_at m k P).key = some k ∧
          m' = set_value m (slot_at m k P) v) ∨
       ((entry_at m k P).used = false ∧ ∃ t, t ≤ P ∧
          (∀ j', j' < t → (entry_at m k j').tombstone = false) ∧
          ¬ (m.slot (slot_at m k t)).live ∧ m' = insert_at m (slot_at m k t) k v)) := by
  rw [hashmap_put_eq] at h
  cases hfs : first_stop (stop_put m k) fuel 0 with
  | none => rw [hfs] at h; cases h
  | some P =>
    rw [hfs] at h
    simp only [Option.map_some', Option.some.injEq, Prod.mk.injEq] at h
    obtain ⟨_, hP, hstop, hbefore⟩ := first_stop_some fuel 0 P hfs
    have hb : ∀ j', j' < P → stop_put m k j' = false := fun j' hj' => hbefore j' (by omega) hj'
    by_cases hu : (entry_at m k P).used = false
    · rw [put_result, if_pos hu] at h
      refine ⟨h.2.symm, P, by omega, hb, Or.inr ⟨hu, ?_⟩⟩
      cases hft : first_tomb m k 0 P with
      | none =>
        rw [hft] at h
        refine ⟨P, le_refl _, ?_, ?_, h.1.symm⟩
        · intro j' hj'
          exact first_tomb_none m k P 0 hft j' (by omega) (by omega)
        · intro hl
          unfold entry_at at hu
          rw [hl.1] at hu; cases hu
      | some y =>
        rw [hft] at h
        obtain ⟨t, _, ht, hty, htt, htb⟩ := first_tomb_some m k P 0 y hft
        refine ⟨t, by omega, fun j' hj' => htb j' (by omega) hj', ?_, ?_⟩
        · intro hl
          have := hl.2
          unfold entry_at at htt
          rw [htt] at this; cases this
        · rw [hty]; exact h.1.symm
    · rw [put_result, if_neg hu] at h
      refine ⟨h.2.symm, P, by omega, hb, Or.inl ?_⟩
      rcases stop_put_true m k P hstop with h1 | h1
      · exact absurd h1 hu
      · exact ⟨⟨by simpa using hu, h1.1⟩, h1.2.2, h.1.symm⟩

theorem remove_spec (fuel : Nat) (m : HashMap) (k : Key) (m' : HashMap) (r : Nat)
    (h : hashmap_remove fuel (some m) (some k) = some (some m', r)) :
    ∃ P, P < fuel ∧ (∀ j', j' < P → stop_remove m k j' = false) ∧
      (((entry_at m k P).used = false ∧ (entry_at m k P).tombstone = false ∧ m' = m ∧ r = 0) ∨
       ((entry_at m k P).live ∧ (entry_at m k P).holds k ∧
          m' = tomb_at m (slot_at m k P) ∧ r = 1)) := by
  rw [hashmap_remove_eq] at h
  cases hfs : first_stop (stop_remove m k) fuel 0 with
  | none => rw [hfs] at h; cases h
  | some P =>
    rw [hfs] at h
    simp only [Option.map_some', Option.some.injEq, Prod.mk.injEq] at h
    obtain ⟨_, hP, hstop, hbefore⟩ := first_stop_some fuel 0 P hfs
    refine ⟨P, by omega, fun j' hj' => hbefore j' (by omega) hj', ?_⟩
    by_cases hu : (entry_at m k P).used = false ∧ (entry_at m k P).tombstone = false
    · rw [remove_result, if_pos hu] at h
      exact Or.inl ⟨hu.1, hu.2, h.1.symm, h.2.symm⟩
    · rw [remove_result, if_neg hu] at h
      rcases stop_remove_true m k P hstop with h1 | h1
      · exact absurd h1 hu
      · exact Or.inr ⟨⟨h1.1, h1.2.1⟩, h1.2.2, h.1.symm, h.2.symm⟩

theorem slot_at_lt_length (m : HashMap) (hI : Inv m) (k : Key) (j : Nat) :
    slot_at m k j < m.entries.length := by
  obtain ⟨n, hn, hcap⟩ := hI.cap_pow2
  rw [hI.len]
  exact slot_at_lt m n hn hcap k j

theorem Inv_put (fuel : Nat) (m : HashMap) (k : Key) (v : Nat) (m' : HashMap) (r : Nat)
    (hI : Inv m) (h : hashmap_put fuel (some m) (some k) v = some (some m', r)) : Inv m' := by
  obtain ⟨_, P, _, hb, hc⟩ := put_spec fuel m k v m' r h
  rcases hc with ⟨_, _, hm⟩ | ⟨hu, t, ht, htb, hnl, hm⟩
  · rw [hm]
    exact Inv_set_value m _ v hI (slot_at_lt_length m hI k P)
  · rw [hm]
    refine Inv_insert_at m k v t hI ?_ hnl (no_live_of_unused m hI k P hu hb)
    intro j' hj'
    have h1 := stop_put_false m k j' (hb j' (by omega))
    have h2 := htb j' hj'
    refine ⟨h1.1, h2, ?_⟩
    intro hk
    exact h1.2 ⟨h2, (holds_iff_key m hI _ k h1.1).2 hk⟩

theorem Inv_remove (fuel : Nat) (m : HashMap) (k : Key) (m' : HashMap) (r : Nat)
    (hI : Inv m) (h : hashmap_remove fuel (some m) (some k) = some (some m', r)) : Inv m' := by
  obtain ⟨P, _, _, hc⟩ := remove_spec fuel m k m' r h
  rcases hc with ⟨_, _, hm, _⟩ | ⟨hl, _, hm, _⟩
  · rw [hm]; exact hI
  · rw [hm]; exact Inv_tomb_at m _ hI hl

theorem Inv_create (fuel : Nat) (a : Arena) (r : Nat) (m : HashMap) (a' : Option Arena)
    (h : hashmap_create fuel (some a) r = some (some m, a')) : Inv m := by
  obtain ⟨n, hn, hm, _⟩ := hashmap_create_cap fuel a r m a' h
  rw [hm]; exact Inv_fresh n hn

/-- Every reachable map satisfies the representation invariant. -/
theorem Reachable.inv {m : HashMap} (h : Reachable m) : Inv m := by
  induction h with
  | create fuel arena capacity m a hc => exact Inv_create fuel arena capacity m a hc
  | put fuel m k v m' r _ hp ih => exact Inv_put fuel m k v m' r ih hp
  | remove fuel m k m' r _ hr ih => exact Inv_remove fuel m k m' r ih hr
  | clone fuel src arena m a _ hc ih =>
    rw [hashmap_clone_eq fuel src arena m a ih hc]; exact ih

theorem tri_succ (j : Nat) : tri (j + 1) = tri j + (j + 1) := rfl

theorem two_mul_tri (j : Nat) : 2 * tri j = j * (j + 1) := by
  induction j with
  | zero => rfl
  | succ j ih => rw [tri_succ, Nat.mul_add, ih]; ring

theorem probe_state_succ (mask s j : Nat) :
    probe_state mask s (j + 1) =
      (next_index mask (probe_state mask s j).1 (probe_state mask s j).2,
       next_step (probe_state mask s j).2) := rfl

theorem probe_state_closed (n : Nat) (hn : n ≤ 63) (s : Nat) (hs : s < 2 ^ n) :
    ∀ j, j < WORD → probe_state (2 ^ n - 1) s j = ((s + tri j) % 2 ^ n, j) := by
  intro j
  induction j with
  | zero => intro _; simp [probe_state, tri, Nat.mod_eq_of_lt hs]
  | succ j ih =>
    intro hj
    rw [probe_state_succ, ih (by omega)]
    have h1 : next_step j = j + 1 := Nat.mod_eq_of_lt hj
    have hdvd : 2 ^ n ∣ WORD := by
      unfold WORD; exact Nat.pow_dvd_pow 2 (by omega)
    simp only [next_index, h1, Nat.and_pow_two_sub_one_eq_mod]
    rw [Nat.mod_mod_of_dvd _ hdvd, tri_succ, Nat.add_mod, Nat.mod_mod, ← Nat.add_mod,
      Nat.add_assoc]

theorem tri_mod_inj (n : Nat) (s a b : Nat) (hab : a < b) (hb : b < 2 ^ n)
    (h : (s + tri a) % 2 ^ n = (s + tri b) % 2 ^ n) : False := by
  have hmono : tri a ≤ tri b := by
    have h1 := two_mul_tri a
    have h2 := two_mul_tri b
    have : a * (a + 1) ≤ b * (b + 1) := Nat.mul_le_mul (by omega) (by omega)
    omega
  have hd : 2 ^ n ∣ tri b - tri a := by
    have : (s + tri b) - (s + tri a) = tri b - tri a := by omega
    rw [← this]
    exact (Nat.modEq_iff_dvd' (by omega)).1 h
  have hd2 : 2 ^ (n + 1) ∣ (b - a) * (a + b + 1) := by
    have e : (b - a) * (a + b + 1) = 2 * (tri b - tri a) := by
      have h1 := two_mul_tri a
      have h2 := two_mul_tri b
      rw [Nat.mul_sub, h1, h2]
      obtain ⟨d, rfl⟩ : ∃ d, b = a + d := ⟨b - a, by omega⟩
      have : a + d - a = d := by omega
      rw [this]
      have e2 : (a + d) * (a + d + 1) = a * (a + 1) + d * (a + (a + d) + 1) := by ring
      rw [e2]; omega
    rw [e, pow_succ, Nat.mul_comm]
    exact Nat.mul_dvd_mul_left 2 hd
  have hpos1 : 0 < b - a := by omega
  have hpos2 : 0 < a + b + 1 := by omega
  have hlt1 : b - a < 2 ^ (n + 1) := by rw [pow_succ]; omega
  have hlt2 : a + b + 1 < 2 ^ (n + 1) := by rw [pow_succ]; omega
  rcases Nat.even_or_odd (b - a) with he | ho
  · have ho2 : Odd (a + b + 1) := by
      obtain ⟨c, hc⟩ := he
      exact ⟨a + c, by omega⟩
    have hcop : Nat.Coprime (2 ^ (n + 1)) (a + b + 1) :=
      Nat.Coprime.pow_left _ (Nat.coprime_two_left.2 ho2)
    have := Nat.Coprime.dvd_of_dvd_mul_right hcop hd2
    have := Nat.le_of_dvd hpos1 this
    omega
  · have hcop : Nat.Coprime (2 ^ (n + 1)) (b - a) :=
      Nat.Coprime.pow_left _ (Nat.coprime_two_left.2 ho)
    have := Nat.Coprime.dvd_of_dvd_mul_left hcop hd2
    have := Nat.le_of_dvd hpos2 this
    omega

theorem tri_mod_surj (n : Nat) (s x : Nat) (hx : x < 2 ^ n) :
    ∃ j, j < 2 ^ n ∧ (s + tri j) % 2 ^ n = x := by
  have hpos : 0 < 2 ^ n := Nat.pow_pos (by norm_num)
  let f : Fin (2 ^ n) → Fin (2 ^ n) := fun j => ⟨(s + tri j.1) % 2 ^ n, Nat.mod_lt _ hpos⟩
  have hinj : Function.Injective f := by
    intro a b hab
    have hv : (s + tri a.1) % 2 ^ n = (s + tri b.1) % 2 ^ n := congrArg Fin.val hab
    apply Fin.ext
    rcases Nat.lt_trichotomy a.1 b.1 with h | h | h
    · exact (tri_mod_inj n s a.1 b.1 h b.2 hv).elim
    · exact h
    · exact (tri_mod_inj n s b.1 a.1 h a.2 hv.symm).elim
  have hsurj : Function.Surjective f := Finite.injective_iff_surjective.1 hinj
  obtain ⟨j, hj⟩ := hsurj ⟨x, hx⟩
  exact ⟨j.1, j.2, congrArg Fin.val hj⟩

/-- Probe totality: within the first `capacity` rounds the probe sequence of any
key reaches every slot of the table. -/
theorem slot_at_surj (m : HashMap) (hI : Inv m) (k : Key) (x : Nat) (hx : x < m.capacity) :
    ∃ j, j < m.capacity ∧ slot_at m k j = x := by
  obtain ⟨n, hn, hcap⟩ := hI.cap_pow2
  have hmask : mask_of m.capacity = 2 ^ n - 1 := by rw [hcap]; exact mask_of_pow2 n hn
  have hpos : 0 < 2 ^ n := Nat.pow_pos (by norm_num)
  have hs : hash_str k &&& mask_of m.capacity < 2 ^ n := by
    have : hash_str k &&& mask_of m.capacity ≤ mask_of m.capacity := Nat.and_le_right
    omega
  rw [hcap] at hx
  obtain ⟨j, hj, hjx⟩ := tri_mod_surj n (hash_str k &&& mask_of m.capacity) x hx
  refine ⟨j, by rw [hcap]; exact hj, ?_⟩
  unfold slot_at loop_state
  have hw : j < WORD := lt_trans hj (word_gt n hn)
  have := probe_state_closed n hn _ hs j hw
  rw [← hmask] at this
  rw [this]
  exact hjx

theorem first_stop_exists {stop : Nat → Bool} (j0 : Nat) (h : stop j0 = true) :
    ∃ P, P ≤ j0 ∧ stop P = true ∧ (∀ j', j' < P → stop j' = false) ∧
      ∀ fuel, P < fuel → first_stop stop fuel 0 = some P := by
  have hex : ∃ j, stop j = true := ⟨j0, h⟩
  classical
  refine ⟨Nat.find hex, Nat.find_min' hex h, Nat.find_spec hex, ?_, ?_⟩
  · intro j' hj'
    have := Nat.find_min hex hj'
    simpa using this
  · intro fuel hf
    apply first_stop_of fuel 0 _ (Nat.zero_le _) (by omega) (Nat.find_spec hex)
    intro j' _ hj'
    have := Nat.find_min hex hj'
    simpa using this

theorem first_stop_never {stop : Nat → Bool} (h : ∀ j, stop j = false) (fuel : Nat) :
    first_stop stop fuel 0 = none :=
  first_stop_none fuel 0 (fun j' _ _ => h j')

/-- Where `hashmap_put` leaves the key: after a put that returned, key `k` sits
Live with value `v` in some round `t < fuel` of its probe sequence, and every
earlier round shows a used slot with another key. -/
theorem put_position (fuel : Nat) (m : HashMap) (k : Key) (v : Nat) (m' : HashMap) (r : Nat)
    (hI : Inv m) (h : hashmap_put fuel (some m) (some k) v = some (some m', r)) :
    ∃ t, t < fuel ∧ (entry_at m' k t).live ∧ (entry_at m' k t).key = some k ∧
      (entry_at m' k t).value = v ∧
      ∀ j', j' < t → (entry_at m' k j').used = true ∧ (entry_at m' k j').key ≠ some k := by
  obtain ⟨_, P, hP, hb, hc⟩ := put_spec fuel m k v m' r h
  rcases hc with ⟨hl, hk, hm⟩ | ⟨hu, t, ht, htb, hnl, hm⟩
  · have hx := slot_at_lt_length m hI k P
    have he : ∀ j, entry_at m' k j = if slot_at m k j = slot_at m k P
        then { m.slot (slot_at m k P) with value := v } else m.slot (slot_at m k j) := by
      intro j
      rw [hm]
      exact slot_set_value m _ v _ hx
    have hord := hI.order k P hl hk (by
      intro j' hj' hc
      have h1 := stop_put_false m k j' (hb j' hj')
      exact h1.2 ⟨hc.1.2, (holds_iff_key m hI _ k h1.1).2 hc.2⟩)
    refine ⟨P, hP, ?_, ?_, ?_, ?_⟩
    · rw [he, if_pos rfl]; exact hl
    · rw [he, if_pos rfl]; exact hk
    · rw [he, if_pos rfl]
    · intro j' hj'
      have h1 := stop_put_false m k j' (hb j' hj')
      have h2 := hord j' hj'
      rw [he]
      by_cases e : slot_at m k j' = slot_at m k P
      · rw [if_pos e]
        unfold entry_at at h1 h2
        rw [e] at h1 h2
        exact ⟨h1.1, h2⟩
      · rw [if_neg e]; exact ⟨h1.1, h2⟩
  · have hy := slot_at_lt_length m hI k t
    have he : ∀ j, entry_at m' k j = if slot_at m k j = slot_at m k t
        then { key := some k, value := v, hash := hash_str k, used := true, tombstone := false }
        else m.slot (slot_at m k j) := by
      intro j
      rw [hm]
      exact slot_insert_at m _ k v _ hy
    refine ⟨t, by omega, ?_, ?_, ?_, ?_⟩
    · rw [he, if_pos rfl]; exact ⟨rfl, rfl⟩
    · rw [he, if_pos rfl]
    · rw [he, if_pos rfl]
    · intro j' hj'
      have h1 := stop_put_false m k j' (hb j' (by omega))
      have h2 := htb j' hj'
      have hne : slot_at m k j' ≠ slot_at m k t := by
        intro e
        apply hnl
        rw [← e]
        exact ⟨h1.1, h2⟩
      rw [he, if_neg hne]
      refine ⟨h1.1, ?_⟩
      intro hk
      exact h1.2 ⟨h2, (holds_iff_key m hI _ k h1.1).2 hk⟩

/-- A key that sits Live in round `t` behind used slots of other keys is found by
`hashmap_get` in that round. -/
theorem get_at_position (fuel : Nat) (m : HashMap) (k : Key) (t : Nat) (hI : Inv m)
    (ht : t < fuel) (hl : (entry_at m k t).live) (hk : (entry_at m k t).key = some k)
    (hb : ∀ j', j' < t → (entry_at m k j').used = true ∧ (entry_at m k j').key ≠ some k) :
    hashmap_get fuel (some m) (some k) = some (entry_at m k t).value := by
  rw [hashmap_get_eq]
  have hs : stop_get m k t = true := by
    unfold stop_get
    exact decide_eq_true (Or.inr ((holds_iff_key m hI _ k hl.1).2 hk))
  have hn : ∀ j', 0 ≤ j' → j' < t → stop_get m k j' = false := by
    intro j' _ hj'
    unfold stop_get
    rw [decide_eq_false_iff_not]
    rintro (h | h)
    · rw [(hb j' hj').1] at h; cases h
    · exact (hb j' hj').2 h.2
  rw [first_stop_of fuel 0 t (Nat.zero_le _) (by omega) hs hn]
  simp only [Option.map_some', get_result]
  rw [if_neg (by rw [hl.1]; simp)]

/-- A key that sits Live in round `t` behind used slots of other keys is
overwritten in place by `hashmap_put`. -/
theorem put_at_position (fuel : Nat) (m : HashMap) (k : Key) (v t : Nat) (hI : Inv m)
    (ht : t < fuel) (hl : (entry_at m k t).live) (hk : (entry_at m k t).key = some k)
    (hb : ∀ j', j' < t → (entry_at m k j').used = true ∧ (entry_at m k j').key ≠ some k) :
    hashmap_put fuel (some m) (some k) v = some (some (set_value m (slot_at m k t) v), 1) := by
  rw [hashmap_put_eq]
  have hs : stop_put m k t = true := by
    unfold stop_put
    exact decide_eq_true (Or.inr ⟨hl.2, (holds_iff_key m hI _ k hl.1).2 hk⟩)
  have hn : ∀ j', 0 ≤ j' → j' < t → stop_put m k j' = false := by
    intro j' _ hj'
    unfold stop_put
    rw [decide_eq_false_iff_not]
    rintro (h | h)
    · rw [(hb j' hj').1] at h; cases h
    · exact (hb j' hj').2 h.2.2
  rw [first_stop_of fuel 0 t (Nat.zero_le _) (by omega) hs hn]
  simp only [Option.map_some', put_result]
  rw [if_neg (by rw [hl.1]; simp)]

theorem get_after_put (fuel : Nat) (m : HashMap) (k : Key) (v : Nat) (m' : HashMap) (r : Nat)
    (hI : Inv m) (h : hashmap_put fuel (some m) (some k) v = some (some m', r))
    (fuel' : Nat) (hf : fuel ≤ fuel') :
    hashmap_get fuel' (some m') (some k) = some v := by
  obtain ⟨t, ht, hl, hk, hv, hb⟩ := put_position fuel m k v m' r hI h
  have := get_at_position fuel' m' k t (Inv_put fuel m k v m' r hI h) (by omega) hl hk hb
  rw [hv] at this
  exact this

theorem reachable_map4 : Reachable map4 :=
  Reachable.create 64 arena0 4 map4 (some { size := 4096, used := 160 }) (by decide)

theorem reachable_map4_a : Reachable map4_a :=
  Reachable.put 4 map4 [97] 1 map4_a 1 reachable_map4 (by decide)

theorem reachable_map4_ab : Reachable map4_ab :=
  Reachable.put 4 map4_a [98] 2 map4_ab 1 reachable_map4_a (by decide)

theorem reachable_map4_b : Reachable map4_b :=
  Reachable.remove 4 map4_ab [97] map4_b 1 reachable_map4_ab (by decide)

theorem reachable_map2 : Reachable map2 :=
  Reachable.create 64 arena0 2 map2 (some { size := 4096, used := 96 }) (by decide)

theorem reachable_map2_a : Reachable map2_a :=
  Reachable.put 2 map2 [97] 1 map2_a 1 reachable_map2 (by decide)

theorem reachable_map2_ab : Reachable map2_ab :=
  Reachable.put 2 map2_a [98] 2 map2_ab 1 reachable_map2_a (by decide)

theorem reachable_map2_b : Reachable map2_b :=
  Reachable.remove 2 map2_ab [97] map2_b 1 reachable_map2_ab (by decide)

/-- C1: on every reachable map, a `hashmap_put(m, k, v)` that returns success (1)
is followed by `hashmap_get(m, k)` returning `v` (within the number of probe
rounds the put took, and with any larger allowance). -/
theorem c1_put_then_get (m : HashMap) (hR : Reachable m) (k : Key) (v fuel : Nat)
    (m' : HashMap) (h : hashmap_put fuel (some m) (some k) v = some (some m', 1)) :
    ∀ fuel', fuel ≤ fuel' → hashmap_get fuel' (some m') (some k) = some v :=
  fun fuel' hf => get_after_put fuel m k v m' 1 hR.inv h fuel' hf

theorem c1_put_then_get_witness :
    Reachable map4_a ∧ hashmap_put 4 (some map4_a) (some [98]) 2 = some (some map4_ab, 1) ∧
      ∀ fuel', 4 ≤ fuel' → hashmap_get fuel' (some map4_ab) (some [98]) = some 2 :=
  ⟨reachable_map4_a, by decide,
    c1_put_then_get map4_a reachable_map4_a [98] 2 4 map4_ab (by decide)⟩

/-- C4: on every reachable map, after a successful `hashmap_put(m, k, v1)` a
following `hashmap_put(m, k, v2)` succeeds, leaves `count` as it was after the
first put, and `hashmap_get(m, k)` then returns `v2`. -/
theorem c4_put_twice (m : HashMap) (hR : Reachable m) (k : Key) (v1 v2 fuel : Nat)
    (m1 : HashMap) (h : hashmap_put fuel (some m) (some k) v1 = some (some m1, 1)) :
    ∃ m2, (∀ fuel', fuel ≤ fuel' →
        hashmap_put fuel' (some m1) (some k) v2 = some (some m2, 1)) ∧
      m2.count = m1.count ∧
      ∀ fuel', fuel ≤ fuel' → hashmap_get fuel' (some m2) (some k) = some v2 := by
  have hI1 : Inv m1 := Inv_put fuel m k v1 m1 1 hR.inv h
  obtain ⟨t, ht, hl, hk, _, hb⟩ := put_position fuel m k v1 m1 1 hR.inv h
  have h2 := fun fuel' (hf : fuel ≤ fuel') =>
    put_at_position fuel' m1 k v2 t hI1 (by omega) hl hk hb
  exact ⟨_, h2, rfl, get_after_put fuel m1 k v2 _ 1 hI1 (h2 fuel (le_refl _))⟩

theorem c4_put_twice_witness :
    Reachable map4 ∧ hashmap_put 4 (some map4) (some [97]) 1 = some (some map4_a, 1) ∧
      ∃ m2, (∀ fuel', 4 ≤ fuel' →
          hashmap_put fuel' (some map4_a) (some [97]) 7 = some (some m2, 1)) ∧
        m2.count = map4_a.count ∧
        ∀ fuel', 4 ≤ fuel' → hashmap_get fuel' (some m2) (some [97]) = some 7 :=
  ⟨reachable_map4, by decide, c4_put_twice map4 reachable_map4 [97] 1 7 4 map4_a (by decide)⟩

/-- A present key is met by its probe sequence within `capacity` rounds, behind
used slots only. -/
theorem present_position (m : HashMap) (hI : Inv m) (k : Key) (hp : Present m k) :
    ∃ P, P < m.capacity ∧ (entry_at m k P).live ∧ (entry_at m k P).key = some k ∧
      ∀ j', j' < P → (entry_at m k j').used = true ∧
        ¬ ((entry_at m k j').live ∧ (entry_at m k j').key = some k) := by
  obtain ⟨x, hl, hk⟩ := hp
  obtain ⟨jc, hjc, hbc⟩ := hI.chain x k hl.1 hk
  have hx : x < m.capacity := by rw [← hI.len]; exact slot_used_lt m x hl.1
  obtain ⟨j0, hj0, hj0x⟩ := slot_at_surj m hI k x hx
  let stop : Nat → Bool := fun j =>
    decide ((entry_at m k j).live ∧ (entry_at m k j).key = some k)
  have hs0 : stop j0 = true := by
    apply decide_eq_true
    unfold entry_at; rw [hj0x]; exact ⟨hl, hk⟩
  have hsc : stop jc = true := by
    apply decide_eq_true
    unfold entry_at; rw [hjc]; exact ⟨hl, hk⟩
  obtain ⟨P, hP0, hPs, hPb, _⟩ := first_stop_exists j0 hs0
  have hPc : P ≤ jc := by
    by_contra hc
    have := hPb jc (by omega)
    rw [hsc] at this; cases this
  have hPs' := of_decide_eq_true hPs
  refine ⟨P, by omega, hPs'.1, hPs'.2, ?_⟩
  intro j' hj'
  refine ⟨hbc j' (by omega), ?_⟩
  have := hPb j' hj'
  exact of_decide_eq_false this

theorem remove_at_position (fuel : Nat) (m : HashMap) (k : Key) (P : Nat) (hI : Inv m)
    (hP : P < fuel) (hl : (entry_at m k P).live) (hk : (entry_at m k P).key = some k)
    (hb : ∀ j', j' < P → (entry_at m k j').used = true ∧
        ¬ ((entry_at m k j').live ∧ (entry_at m k j').key = some k)) :
    hashmap_remove fuel (some m) (some k) = some (some (tomb_at m (slot_at m k P)), 1) := by
  rw [hashmap_remove_eq]
  have hs : stop_remove m k P = true := by
    unfold stop_remove
    exact decide_eq_true (Or.inr ⟨hl.1, hl.2, (holds_iff_key m hI _ k hl.1).2 hk⟩)
  have hn : ∀ j', 0 ≤ j' → j' < P → stop_remove m k j' = false := by
    intro j' _ hj'
    unfold stop_remove
    rw [decide_eq_false_iff_not]
    rintro (h | h)
    · rw [(hb j' hj').1] at h; cases h.1
    · exact (hb j' hj').2 ⟨⟨h.1, h.2.1⟩, h.2.2.2⟩
  rw [first_stop_of fuel 0 P (Nat.zero_le _) (by omega) hs hn]
  simp only [Option.map_some', remove_result]
  rw [if_neg (by rw [hl.1]; simp)]

theorem count_tomb_at (m : HashMap) (x : Nat) (hI : Inv m) (hl : (m.slot x).live) :
    (tomb_at m x).count + 1 = m.count := by
  have hx : x < m.entries.length := slot_used_lt m x hl.1
  have hc := countP_set (fun e => e.used && !e.tombstone) m.entries x
    { m.slot x with tombstone := true } hx
  have hp : (fun e : Entry => e.used && !e.tombstone) (m.entries.getD x emptyEntry) = true := by
    have := hl
    unfold Entry.live HashMap.slot at this
    show ((m.entries.getD x emptyEntry).used && !(m.entries.getD x emptyEntry).tombstone) = true
    rw [this.1, this.2]; rfl
  have e1 : live_count (tomb_at m x) + 1 = live_count m := by
    unfold live_count tomb_at
    simp only [hp, if_true] at hc
    simp only [Bool.and_false, Bool.not_true] at hc
    simpa using hc
  have h1 := (Inv_tomb_at m x hI hl).count_eq
  have h2 := hI.count_eq
  omega

/-- C3: on every reachable map, `hashmap_remove(m, k)` of a present (Live) key
returns Removed (1) within `capacity` probe rounds, and `count` afterwards is
the count before minus 1. -/
theorem c3_remove_present (m : HashMap) (hR : Reachable m) (k : Key) (hp : Present m k) :
    ∃ m', (∀ fuel, m.capacity ≤ fuel →
        hashmap_remove fuel (some m) (some k) = some (some m', 1)) ∧
      m'.count + 1 = m.count := by
  obtain ⟨P, hP, hl, hk, hb⟩ := present_position m hR.inv k hp
  refine ⟨tomb_at m (slot_at m k P), ?_, count_tomb_at m _ hR.inv hl⟩
  intro fuel hf
  exact remove_at_position fuel m k P hR.inv (by omega) hl hk hb

theorem c3_remove_present_witness :
    Reachable map4_ab ∧ Present map4_ab [97] ∧
      ∃ m', (∀ fuel, map4_ab.capacity ≤ fuel →
          hashmap_remove fuel (some map4_ab) (some [97]) = some (some m', 1)) ∧
        m'.count + 1 = map4_ab.count :=
  ⟨reachable_map4_ab, ⟨2, by decide, by decide⟩,
    c3_remove_present map4_ab reachable_map4_ab [97] ⟨2, by decide, by decide⟩⟩

/-- C2 (the code departs from the claim): after `hashmap_put(m, "a", 1)`,
`hashmap_put(m, "b", 2)` on a capacity-4 map, `hashmap_remove(m, "a")` returns
Removed and leaves a Tombstone, yet `hashmap_get(m, "a")` still returns the
removed value `1` instead of NULL: the loop of `hashmap_get` never looks at
`tombstone`. -/
theorem c2_get_returns_removed_value :
    Reachable map4_ab ∧ Present map4_ab [97] ∧
      hashmap_remove 4 (some map4_ab) (some [97]) = some (some map4_b, 1) ∧
      (map4_b.slot 2).tombstone = true ∧
      hashmap_get 4 (some map4_b) (some [97]) = some 1 :=
  ⟨reachable_map4_ab, ⟨2, by decide, by decide⟩, by decide, by decide, by decide⟩

/-- On a table without a never-used slot, `hashmap_put` and `hashmap_remove` of a
key that is not present never leave their loops. -/
theorem put_remove_spin (m : HashMap) (hI : Inv m) (k : Key)
    (hfull : ∀ x, x < m.capacity → (m.slot x).used = true) (hp : ¬ Present m k) :
    ∀ fuel v, hashmap_put fuel (some m) (some k) v = none ∧
      hashmap_remove fuel (some m) (some k) = none := by
  obtain ⟨n, hn, hcap⟩ := hI.cap_pow2
  have hu : ∀ j, (entry_at m k j).used = true := fun j =>
    hfull _ (slot_at_lt m n hn hcap k j)
  have hnl : ∀ j, ¬ ((entry_at m k j).tombstone = false ∧ (entry_at m k j).holds k) := by
    intro j h
    exact hp ⟨slot_at m k j, ⟨hu j, h.1⟩, h.2.2⟩
  intro fuel v
  constructor
  · rw [hashmap_put_eq, first_stop_never]
    · rfl
    · intro j
      unfold stop_put
      rw [decide_eq_false_iff_not]
      rintro (h | h)
      · rw [hu j] at h; cases h
      · exact hnl j h
  · rw [hashmap_remove_eq, first_stop_never]
    · rfl
    · intro j
      unfold stop_remove
      rw [decide_eq_false_iff_not]
      rintro (h | h)
      · rw [hu j] at h; cases h.1
      · exact hnl j h.2

/-- On a table without a never-used slot, `hashmap_get` of a key that no slot
holds never leaves its loop. -/
theorem get_spin (m : HashMap) (hI : Inv m) (k : Key)
    (hfull : ∀ x, x < m.capacity → (m.slot x).used = true ∧ (m.slot x).key ≠ some k) :
    ∀ fuel, hashmap_get fuel (some m) (some k) = none := by
  obtain ⟨n, hn, hcap⟩ := hI.cap_pow2
  intro fuel
  rw [hashmap_get_eq, first_stop_never]
  · rfl
  · intro j
    have := hfull _ (slot_at_lt m n hn hcap k j)
    unfold stop_get
    rw [decide_eq_false_iff_not]
    rintro (h | h)
    · unfold entry_at at h; rw [this.1] at h; cases h
    · exact this.2 h.2

theorem not_present_of_slots (m : HashMap) (k : Key)
    (h : ∀ x, x < m.entries.length → ¬ ((m.slot x).live ∧ (m.slot x).key = some k)) :
    ¬ Present m k := by
  rintro ⟨x, hl, hk⟩
  exact h x (slot_used_lt m x hl.1) ⟨hl, hk⟩

/-- C5 (the code departs from the claim): `map2_b` is reached by
`hashmap_create(arena, 2)`, `hashmap_put` of "a" and "b", and a successful
`hashmap_remove(m, "a")`.  Neither "a" nor "c" is present in it, yet a second
`hashmap_remove(m, "a")` and `hashmap_remove(m, "c")` never return: no slot is
never-used any more, and the loop has no other exit for an absent key. -/
theorem c5_remove_absent_never_returns :
    Reachable map2_ab ∧
      hashmap_remove 2 (some map2_ab) (some [97]) = some (some map2_b, 1) ∧
      ¬ Present map2_b [97] ∧ ¬ Present map2_b [99] ∧
      ∀ fuel, hashmap_remove fuel (some map2_b) (some [97]) = none ∧
        hashmap_remove fuel (some map2_b) (some [99]) = none := by
  have hp1 : ¬ Present map2_b [97] := not_present_of_slots map2_b [97] (by decide)
  have hp2 : ¬ Present map2_b [99] := not_present_of_slots map2_b [99] (by decide)
  refine ⟨reachable_map2_ab, by decide, hp1, hp2, ?_⟩
  intro fuel
  exact ⟨(put_remove_spin map2_b reachable_map2_b.inv [97] (by decide) hp1 fuel 0).2,
    (put_remove_spin map2_b reachable_map2_b.inv [99] (by decide) hp2 fuel 0).2⟩

/-- C10 (the code departs from the claim): `map2_ab` is reached by
`hashmap_create(arena, 2)` and `hashmap_put` of "a" and "b".  For the absent key
"c" none of `hashmap_get`, `hashmap_put`, `hashmap_remove` returns, however many
probe rounds are allowed: the `for (;;)` loops count no rounds and the table has
no never-used slot left. -/
theorem c10_loops_never_return_on_full_table :
    Reachable map2_ab ∧ ¬ Present map2_ab [99] ∧
      ∀ fuel, hashmap_get fuel (some map2_ab) (some [99]) = none ∧
        hashmap_put fuel (some map2_ab) (some [99]) 3 = none ∧
        hashmap_remove fuel (some map2_ab) (some [99]) = none := by
  have hp : ¬ Present map2_ab [99] := not_present_of_slots map2_ab [99] (by decide)
  refine ⟨reachable_map2_ab, hp, ?_⟩
  intro fuel
  have h := put_remove_spin map2_ab reachable_map2_ab.inv [99] (by decide) hp fuel 3
  exact ⟨get_spin map2_ab reachable_map2_ab.inv [99] (by decide) fuel, h.1, h.2⟩

/-- A never-used slot is met by every probe sequence within `capacity` rounds. -/
theorem unused_position (m : HashMap) (hI : Inv m) (k : Key)
    (hfree : ∃ x, x < m.capacity ∧ (m.slot x).used = false) :
    ∃ j, j < m.capacity ∧ (entry_at m k j).used = false ∧ (entry_at m k j).tombstone = false := by
  obtain ⟨x, hx, hu⟩ := hfree
  obtain ⟨j, hj, hjx⟩ := slot_at_surj m hI k x hx
  refine ⟨j, hj, ?_, ?_⟩
  · unfold entry_at; rw [hjx]; exact hu
  · unfold entry_at; rw [hjx]
    cases ht : (m.slot x).tombstone with
    | false => rfl
    | true => rw [hI.tomb_used x ht] at hu; cases hu

/-- With a never-used slot left, `hashmap_put` of an absent key returns 1 within
`capacity` rounds and increments `count`. -/
theorem put_absent (m : HashMap) (hI : Inv m) (k : Key) (v : Nat) (hp : ¬ Present m k)
    (hfree : ∃ x, x < m.capacity ∧ (m.slot x).used = false) :
    ∃ m', (∀ fuel, m.capacity ≤ fuel →
        hashmap_put fuel (some m) (some k) v = some (some m', 1)) ∧
      m'.count = m.count + 1 := by
  obtain ⟨j0, hj0, hu0, _⟩ := unused_position m hI k hfree
  have hs0 : stop_put m k j0 = true := decide_eq_true (Or.inl hu0)
  obtain ⟨P, hP0, hPs, _, hfs⟩ := first_stop_exists j0 hs0
  have hu : (entry_at m k P).used = false := by
    rcases stop_put_true m k P hPs with h | h
    · exact h
    · cases hu' : (entry_at m k P).used with
      | false => rfl
      | true => exact absurd ⟨slot_at m k P, ⟨hu', h.1⟩, h.2.2⟩ hp
  refine ⟨insert_at m ((first_tomb m k 0 P).getD (slot_at m k P)) k v, ?_, ?_⟩
  · intro fuel hf
    rw [hashmap_put_eq, hfs fuel (by omega)]
    simp only [Option.map_some', put_result]
    rw [if_pos hu]
  · obtain ⟨n, hn, hcap⟩ := hI.cap_pow2
    have hw := word_gt n hn
    have hle := live_count_le m
    have hlen := hI.len
    have hcnt := hI.count_eq
    show (m.count + 1) % WORD = m.count + 1
    have : 2 ^ n + 1 ≤ WORD := hw
    have h63 : (2:Nat) ^ n ≤ 2 ^ 63 := Nat.pow_le_pow_right (by norm_num) hn
    have hW : WORD = 2 ^ 64 := rfl
    have : (2:Nat) ^ 64 = 2 * 2 ^ 63 := by norm_num
    apply Nat.mod_eq_of_lt
    omega

/-- With a never-used slot left, `hashmap_remove` of an absent key returns 0
within `capacity` rounds and changes nothing. -/
theorem remove_absent (m : HashMap) (hI : Inv m) (k : Key) (hp : ¬ Present m k)
    (hfree : ∃ x, x < m.capacity ∧ (m.slot x).used = false) :
    ∀ fuel, m.capacity ≤ fuel → hashmap_remove fuel (some m) (some k) = some (some m, 0) := by
  obtain ⟨j0, hj0, hu0, ht0⟩ := unused_position m hI k hfree
  have hs0 : stop_remove m k j0 = true := decide_eq_true (Or.inl ⟨hu0, ht0⟩)
  obtain ⟨P, hP0, hPs, _, hfs⟩ := first_stop_exists j0 hs0
  have hu : (entry_at m k P).used = false ∧ (entry_at m k P).tombstone = false := by
    rcases stop_remove_true m k P hPs with h | h
    · exact h
    · exact absurd ⟨slot_at m k P, ⟨h.1, h.2.1⟩, h.2.2.2⟩ hp
  intro fuel hf
  rw [hashmap_remove_eq, hfs fuel (by omega)]
  simp only [Option.map_some', remove_result]
  rw [if_pos hu]

/-- With a never-used slot left, `hashmap_get` returns within `capacity` rounds. -/
theorem get_returns (m : HashMap) (hI : Inv m) (k : Key)
    (hfree : ∃ x, x < m.capacity ∧ (m.slot x).used = false) :
    ∃ r, ∀ fuel, m.capacity ≤ fuel → hashmap_get fuel (some m) (some k) = some r := by
  obtain ⟨j0, hj0, hu0, _⟩ := unused_position m hI k hfree
  have hs0 : stop_get m k j0 = true := decide_eq_true (Or.inl hu0)
  obtain ⟨P, hP0, _, _, hfs⟩ := first_stop_exists j0 hs0
  refine ⟨get_result m k P, ?_⟩
  intro fuel hf
  rw [hashmap_get_eq, hfs fuel (by omega)]
  rfl

theorem hashmap_create_ok (fuel : Nat) (a a1 a2 : Arena) (r c : Nat)
    (h1 : arena_alloc a sizeof_HashMap = some a1)
    (hc : (if r ≠ 0 then next_pow2 fuel r else some 16) = some c)
    (hsz : c * sizeof_Entry < WORD)
    (h2 : arena_alloc a1 (c * sizeof_Entry % WORD) = some a2) :
    hashmap_create fuel (some a) r =
      some (some { entries := List.replicate c emptyEntry, capacity := c, count := 0 },
            some a2) := by
  unfold hashmap_create
  simp only [h1, hc, h2, if_pos hsz]

/-- When `capacity * sizeof(Entry)` wraps and the wrapped request is granted,
`hashmap_create` produces no result. -/
theorem hashmap_create_overrun (fuel : Nat) (a a1 a2 : Arena) (r c : Nat)
    (h1 : arena_alloc a sizeof_HashMap = some a1)
    (hc : (if r ≠ 0 then next_pow2 fuel r else some 16) = some c)
    (hsz : ¬ c * sizeof_Entry < WORD)
    (h2 : arena_alloc a1 (c * sizeof_Entry % WORD) = some a2) :
    hashmap_create fuel (some a) r = none := by
  unfold hashmap_create
  simp only [h1, hc, h2, if_neg hsz]

theorem hashmap_create_spin (fuel : Nat) (a a1 : Arena) (r : Nat)
    (h1 : arena_alloc a sizeof_HashMap = some a1) (hr : 2 ^ 63 < r) :
    hashmap_create fuel (some a) r = none := by
  have hr0 : r ≠ 0 := by omega
  unfold hashmap_create
  simp only [h1, if_pos hr0, next_pow2_diverges fuel r hr]

/-- C6: for every reachable map `src` and every target arena that satisfies both
requests of `hashmap_create` (the map object and `capacity` slots),
`hashmap_clone(src, arena)` returns a map with the same capacity, the same count
and the same slot array, slot for slot; so `hashmap_get` on the clone equals
`hashmap_get` on `src` for every key. -/
theorem c6_clone_identical (src : HashMap) (hR : Reachable src) (a a1 a2 : Arena)
    (fuel : Nat) (hf : 64 ≤ fuel)
    (h1 : arena_alloc a sizeof_HashMap = some a1)
    (hsz : src.capacity * sizeof_Entry < WORD)
    (h2 : arena_alloc a1 (src.capacity * sizeof_Entry) = some a2) :
    ∃ m, hashmap_clone fuel (some src) (some a) = some (some m, some a2) ∧
      m.capacity = src.capacity ∧ m.count = src.count ∧ m.entries = src.entries ∧
      (∀ x, m.slot x = src.slot x) ∧
      ∀ fuel' key, hashmap_get fuel' (some m) key = hashmap_get fuel' (some src) key := by
  obtain ⟨n, hn, hcap⟩ := hR.inv.cap_pow2
  have hle : src.capacity ≤ 2 ^ 63 := by
    rw [hcap]; exact Nat.pow_le_pow_right (by norm_num) hn
  obtain ⟨c, hc⟩ := next_pow2_terminates fuel src.capacity hle hf
  have hcc : c = src.capacity := by
    rw [hcap] at hc ⊢
    exact next_pow2_of_pow2 fuel n c hc
  have hne : src.capacity ≠ 0 := by
    rw [hcap]; exact (Nat.pow_pos (by norm_num)).ne'
  have hcr := hashmap_create_ok fuel a a1 a2 src.capacity c h1
    (by rw [if_pos hne]; exact hc) (by rw [hcc]; exact hsz)
    (by rw [hcc, Nat.mod_eq_of_lt hsz]; exact h2)
  have hcl : hashmap_clone fuel (some src) (some a) =
      some (some { entries := copy_entries src.entries src.capacity
                      (List.replicate c emptyEntry),
                   capacity := c, count := src.count }, some a2) := by
    unfold hashmap_clone
    simp only [hcr]
  have hm := hashmap_clone_eq fuel src a _ (some a2) hR.inv hcl
  refine ⟨_, hcl, ?_, ?_, ?_, ?_, ?_⟩
  · rw [hm]
  · rw [hm]
  · rw [hm]
  · intro x; rw [hm]
  · intro fuel' key; rw [hm]

theorem c6_clone_identical_witness :
    Reachable map4_ab ∧
      ∃ m, hashmap_clone 64 (some map4_ab) (some arena0) =
          some (some m, some { size := 4096, used := 160 }) ∧
        m.capacity = map4_ab.capacity ∧ m.count = map4_ab.count ∧
        m.entries = map4_ab.entries ∧ (∀ x, m.slot x = map4_ab.slot x) ∧
        ∀ fuel' key, hashmap_get fuel' (some m) key = hashmap_get fuel' (some map4_ab) key :=
  ⟨reachable_map4_ab,
    c6_clone_identical map4_ab reachable_map4_ab arena0 { size := 4096, used := 32 }
      { size := 4096, used := 160 } 64 (le_refl _) (by decide) (by decide) (by decide)⟩

/-- Where no `size_t` overflow occurs: for every requested capacity `r ≤ 2 ^ 63`
there is a capacity `c`, the smallest power of two that is at least `r`, or 16
when `r = 0`, such that `hashmap_create(arena, r)` returns a map of capacity `c`
whenever `c * sizeof(Entry)` fits in `size_t` and the arena satisfies the request
for the map object and for `c` slots. -/
theorem create_capacity (fuel : Nat) (hf : 64 ≤ fuel) (a a1 : Arena) (r : Nat)
    (hr : r ≤ 2 ^ 63) (h1 : arena_alloc a sizeof_HashMap = some a1) :
    ∃ c, (r = 0 → c = 16) ∧
      (r ≠ 0 → (∃ n, c = 2 ^ n) ∧ r ≤ c ∧ ∀ n', r ≤ 2 ^ n' → c ≤ 2 ^ n') ∧
      ∀ a2, c * sizeof_Entry < WORD → arena_alloc a1 (c * sizeof_Entry) = some a2 →
        ∃ m, hashmap_create fuel (some a) r = some (some m, some a2) ∧ m.capacity = c := by
  by_cases h0 : r = 0
  · refine ⟨16, fun _ => rfl, fun h => absurd h0 h, ?_⟩
    intro a2 hsz h2
    exact ⟨_, hashmap_create_ok fuel a a1 a2 r 16 h1 (by rw [if_neg (by simpa using h0)]) hsz
      (by rw [Nat.mod_eq_of_lt hsz]; exact h2), rfl⟩
  · obtain ⟨c, hc⟩ := next_pow2_terminates fuel r hr hf
    obtain ⟨n, _, hcn, hrn, hmin⟩ := next_pow2_some fuel r c hc
    refine ⟨c, fun h => absurd h h0, fun _ => ⟨⟨n, hcn⟩, by rw [hcn]; exact hrn, ?_⟩, ?_⟩
    · intro n' hn'
      rw [hcn]
      apply Nat.pow_le_pow_right (by norm_num)
      rcases hmin with h | h
      · omega
      · have : 2 ^ (n - 1) < 2 ^ n' := lt_of_lt_of_le h hn'
        have := (Nat.pow_lt_pow_iff_right (by norm_num : 1 < 2)).1 this
        omega
    · intro a2 hsz h2
      exact ⟨_, hashmap_create_ok fuel a a1 a2 r c h1 (by rw [if_pos h0]; exact hc) hsz
        (by rw [Nat.mod_eq_of_lt hsz]; exact h2), rfl⟩

theorem create_capacity_witness :
    (5 : Nat) ≤ 2 ^ 63 ∧ arena_alloc arena0 sizeof_HashMap = some { size := 4096, used := 32 } ∧
      ∃ c, ((5 : Nat) = 0 → c = 16) ∧
        ((5 : Nat) ≠ 0 → (∃ n, c = 2 ^ n) ∧ 5 ≤ c ∧ ∀ n', 5 ≤ 2 ^ n' → c ≤ 2 ^ n') ∧
        ∀ a2, c * sizeof_Entry < WORD →
          arena_alloc { size := 4096, used := 32 } (c * sizeof_Entry) = some a2 →
          ∃ m, hashmap_create 64 (some arena0) 5 = some (some m, some a2) ∧ m.capacity = c :=
  ⟨by decide, by decide,
    create_capacity 64 (le_refl _) arena0 { size := 4096, used := 32 } 5 (by decide)
      (by decide)⟩

/-- The capacity `hashmap_create` computes for the request `2 ^ 58 + 1`, if
`next_pow2` returns, is `2 ^ 59`. -/
theorem next_pow2_above_2_58 (fuel c : Nat) (h : next_pow2 fuel (2 ^ 58 + 1) = some c) :
    c = 2 ^ 59 := by
  obtain ⟨n, hn, hc, hle, hmin⟩ := next_pow2_some fuel (2 ^ 58 + 1) c h
  have h1 : 58 < n := by
    by_contra hcon
    have : 2 ^ n ≤ 2 ^ 58 := Nat.pow_le_pow_right (by norm_num) (by omega)
    omega
  rcases hmin with h0 | h0
  · omega
  · have h2 : n - 1 ≤ 58 := by
      by_contra hcon
      have : 2 ^ 59 ≤ 2 ^ (n - 1) := Nat.pow_le_pow_right (by norm_num) (by omega)
      have : (2 : Nat) ^ 59 = 2 * 2 ^ 58 := by norm_num
      omega
    have : n = 59 := by omega
    rw [hc, this]

/-- C7 (the code departs from the claim): two requests that are `size_t` values
and for which every allocation call of `hashmap_create` succeeds, on a 4096-byte
arena.  For `2 ^ 63 + 1`, `next_pow2` shifts `p` out to `0` and never returns.
For `2 ^ 58 + 1` the capacity is `2 ^ 59`, the request `capacity * sizeof(Entry)`
wraps to 0 bytes and is granted, and the initialisation loop runs past that
block.  In both cases `hashmap_create` returns neither a map nor NULL. -/
theorem c7_create_overflows :
    (2 ^ 63 + 1 < WORD ∧
      arena_alloc arena0 sizeof_HashMap = some { size := 4096, used := 32 } ∧
      ∀ fuel, hashmap_create fuel (some arena0) (2 ^ 63 + 1) = none) ∧
    (next_pow2 64 (2 ^ 58 + 1) = some (2 ^ 59) ∧ (2 ^ 59 * sizeof_Entry) % WORD = 0 ∧
      arena_alloc { size := 4096, used := 32 } 0 = some { size := 4096, used := 32 } ∧
      ∀ fuel, hashmap_create fuel (some arena0) (2 ^ 58 + 1) = none) := by
  refine ⟨⟨by decide, by decide, fun fuel =>
    hashmap_create_spin fuel arena0 { size := 4096, used := 32 } (2 ^ 63 + 1) (by decide)
      (by omega)⟩, by decide, by decide, by decide, ?_⟩
  intro fuel
  cases hc : next_pow2 fuel (2 ^ 58 + 1) with
  | none =>
    unfold hashmap_create
    have h1 : arena_alloc arena0 sizeof_HashMap = some { size := 4096, used := 32 } := by decide
    simp only [h1, if_pos (by decide : (2 ^ 58 + 1 : Nat) ≠ 0), hc]
  | some c =>
    have hcv := next_pow2_above_2_58 fuel c hc
    subst hcv
    exact hashmap_create_overrun fuel arena0 { size := 4096, used := 32 }
      { size := 4096, used := 32 } (2 ^ 58 + 1) (2 ^ 59) (by decide)
      (by rw [if_pos (by decide : (2 ^ 58 + 1 : Nat) ≠ 0)]; exact hc) (by decide) (by decide)

/-- C8, as stated, fails: `hashmap_create(arena, 4)` returns a map of capacity 4,
which is below 16; only the request 0 is raised to 16. -/
theorem c8_capacity_below_16 :
    hashmap_create 64 (some arena0) 4 = some (some map4, some { size := 4096, used := 160 }) ∧
      map4.capacity = 4 ∧ ¬ (16 ≤ map4.capacity) :=
  ⟨by decide, rfl, by decide⟩

/-- C8, amended: every map reachable from `hashmap_create` by put / remove /
clone has a capacity that is a power of two between 1 and `2 ^ 63`, and its slot
array has exactly that many slots. -/
theorem c8_capacity_pow2 (m : HashMap) (hR : Reachable m) :
    (∃ n, n ≤ 63 ∧ m.capacity = 2 ^ n) ∧ 1 ≤ m.capacity ∧ m.entries.length = m.capacity := by
  obtain ⟨n, hn, hcap⟩ := hR.inv.cap_pow2
  refine ⟨⟨n, hn, hcap⟩, ?_, hR.inv.len⟩
  rw [hcap]; exact Nat.pow_pos (by norm_num)

theorem c8_capacity_pow2_witness :
    Reachable map4_b ∧
      ((∃ n, n ≤ 63 ∧ map4_b.capacity = 2 ^ n) ∧ 1 ≤ map4_b.capacity ∧
        map4_b.entries.length = map4_b.capacity) :=
  ⟨reachable_map4_b, c8_capacity_pow2 map4_b reachable_map4_b⟩

/-- C9, as stated, fails: `map4_ab` holds 2 keys in 4 slots and "c" is absent, so
`(count + 1) / capacity = 0.75` exceeds 0.7; yet `hashmap_put(m, "c", 3)` returns
1 and `count` becomes 3.  The benchmark map of `main.c` accepts the third key of
four slots as well. -/
theorem c9_put_beyond_load_factor :
    (Reachable map4_ab ∧ ¬ Present map4_ab [99] ∧
      7 * map4_ab.capacity < 10 * (map4_ab.count + 1) ∧
      hashmap_put 4 (some map4_ab) (some [99]) 3 = some (some map4_abc, 1) ∧
      map4_abc.count = map4_ab.count + 1) ∧
    ((Bench.hashmap_put 4 Bench.map4 0 0).bind (fun m => Bench.hashmap_put 4 m 1 2)
        = some Bench.map4_01 ∧
      7 * Bench.map4_01.capacity < 10 * (Bench.map4_01.count + 1) ∧
      Bench.hashmap_put 4 Bench.map4_01 2 4 = some Bench.map4_012 ∧
      Bench.map4_012.count = Bench.map4_01.count + 1) :=
  ⟨⟨reachable_map4_ab, not_present_of_slots map4_ab [99] (by decide), by decide, by decide,
    rfl⟩, by decide, by decide, by decide, rfl⟩

/-- C9, amended: the `hashmap_put` of the library has no load-factor guard.  For
every reachable map `m` and key `k` not present in `m`, if `m` still has a
never-used slot then `hashmap_put(m, k, v)` returns 1 within `capacity` probe
rounds and increments `count`, whatever the load; and no call on a map and key
returns 0.  The one load-factor test of the repository is in the benchmark map
of `main.c`: its `hashmap_put` returns with the map unchanged when
`count * 10 >= capacity * 7` on entry. -/
theorem c9_put_ignores_load (m : HashMap) (hR : Reachable m) (k : Key) (v : Nat)
    (hp : ¬ Present m k) (hfree : ∃ x, x < m.capacity ∧ (m.slot x).used = false) :
    (∃ m', (∀ fuel, m.capacity ≤ fuel →
        hashmap_put fuel (some m) (some k) v = some (some m', 1)) ∧
      m'.count = m.count + 1) ∧
    (∀ fuel k' v' m' r, hashmap_put fuel (some m) (some k') v' = some (some m', r) → r = 1) ∧
    ∀ fuel (b : Bench.HashMap) key value,
      (b.capacity * 7) % WORD ≤ (b.count * 10) % WORD →
      Bench.hashmap_put fuel b key value = some b :=
  ⟨put_absent m hR.inv k v hp hfree,
    fun fuel k' v' m' r h => (put_spec fuel m k' v' m' r h).1,
    fun fuel b key value h => by unfold Bench.hashmap_put; rw [if_pos h]⟩

theorem c9_put_ignores_load_witness :
    Reachable map4_ab ∧ ¬ Present map4_ab [99] ∧
      (∃ x, x < map4_ab.capacity ∧ (map4_ab.slot x).used = false) ∧
      ((∃ m', (∀ fuel, map4_ab.capacity ≤ fuel →
          hashmap_put fuel (some map4_ab) (some [99]) 3 = some (some m', 1)) ∧
        m'.count = map4_ab.count + 1) ∧
      (∀ fuel k' v' m' r,
        hashmap_put fuel (some map4_ab) (some k') v' = some (some m', r) → r = 1) ∧
      ∀ fuel (b : Bench.HashMap) key value,
        (b.capacity * 7) % WORD ≤ (b.count * 10) % WORD →
        Bench.hashmap_put fuel b key value = some b) :=
  ⟨reachable_map4_ab, not_present_of_slots map4_ab [99] (by decide), ⟨0, by decide, by decide⟩,
    c9_put_ignores_load map4_ab reachable_map4_ab [99] 3
      (not_present_of_slots map4_ab [99] (by decide)) ⟨0, by decide, by decide⟩⟩

theorem spec_probe_succ (C s j : Nat) :
    spec_probe C s (j + 1) = (spec_probe C s j + (j + 1)) &&& (C - 1) := rfl

theorem spec_probe_closed (n s : Nat) (hs : s < 2 ^ n) :
    ∀ j, spec_probe (2 ^ n) s j = (s + tri j) % 2 ^ n := by
  intro j
  induction j with
  | zero => simp [spec_probe, tri, Nat.mod_eq_of_lt hs]
  | succ j ih =>
    rw [spec_probe_succ, ih, Nat.and_pow_two_sub_one_eq_mod, tri_succ, Nat.add_mod,
      Nat.mod_mod, ← Nat.add_mod, Nat.add_assoc]

theorem probe_state_eq_spec (n : Nat) (hn : n ≤ 63) (s : Nat) (hs : s < 2 ^ n) (j : Nat)
    (hj : j < WORD) : (probe_state (mask_of (2 ^ n)) s j).1 = spec_probe (2 ^ n) s j := by
  rw [mask_of_pow2 n hn, probe_state_closed n hn s hs j hj, spec_probe_closed n s hs]

/-- C11: probe-sequence totality.  For every capacity `C = 2 ^ n` and start index
`s < C`, the sequence `i_0 = s`, `i_j = (i_{j-1} + j) & (C - 1)` stays below `C`,
takes pairwise distinct values for `j = 0 .. C - 1` and reaches every index of
the table; and for every capacity a `size_t` can hold (`n ≤ 63`) it is the
sequence of indices that the loops of get / put / remove compute. -/
theorem c11_probe_totality (n s : Nat) (hs : s < 2 ^ n) :
    (∀ j, spec_probe (2 ^ n) s j < 2 ^ n) ∧
    (∀ a b, a < 2 ^ n → b < 2 ^ n → spec_probe (2 ^ n) s a = spec_probe (2 ^ n) s b → a = b) ∧
    (∀ x, x < 2 ^ n → ∃ j, j < 2 ^ n ∧ spec_probe (2 ^ n) s j = x) ∧
    (n ≤ 63 → ∀ j, j < WORD →
      (probe_state (mask_of (2 ^ n)) s j).1 = spec_probe (2 ^ n) s j) := by
  have hpos : 0 < 2 ^ n := Nat.pow_pos (by norm_num)
  refine ⟨?_, ?_, ?_, ?_⟩
  · intro j
    rw [spec_probe_closed n s hs]
    exact Nat.mod_lt _ hpos
  · intro a b ha hb h
    rw [spec_probe_closed n s hs, spec_probe_closed n s hs] at h
    rcases Nat.lt_trichotomy a b with hab | hab | hab
    · exact (tri_mod_inj n s a b hab hb h).elim
    · exact hab
    · exact (tri_mod_inj n s b a hab ha h.symm).elim
  · intro x hx
    obtain ⟨j, hj, hjx⟩ := tri_mod_surj n s x hx
    exact ⟨j, hj, by rw [spec_probe_closed n s hs]; exact hjx⟩
  · intro hn j hj
    exact probe_state_eq_spec n hn s hs j hj

theorem c11_probe_totality_witness :
    (1 : Nat) < 2 ^ 2 ∧
    ((∀ j, spec_probe (2 ^ 2) 1 j < 2 ^ 2) ∧
    (∀ a b, a < 2 ^ 2 → b < 2 ^ 2 → spec_probe (2 ^ 2) 1 a = spec_probe (2 ^ 2) 1 b → a = b) ∧
    (∀ x, x < 2 ^ 2 → ∃ j, j < 2 ^ 2 ∧ spec_probe (2 ^ 2) 1 j = x) ∧
    (2 ≤ 63 → ∀ j, j < WORD →
      (probe_state (mask_of (2 ^ 2)) 1 j).1 = spec_probe (2 ^ 2) 1 j)) :=
  ⟨by decide, c11_probe_totality 2 1 (by decide)⟩

/-- C12 (the code departs from the claim): for the key "a", `hash_str` returns
`4953267810257967366`, while the 64-bit FNV-1a hash of "a" is
`12638187200555641996`.  The source starts from `1469598103934665603`, which is
the FNV offset basis `14695981039346656037` without its last digit, under a
comment that says FNV-1a 64-bit; the empty key shows the two starting values. -/
theorem c12_hash_str_is_not_fnv1a :
    hash_str [97] = 4953267810257967366 ∧ spec_fnv1a_64 [97] = 12638187200555641996 ∧
      hash_str [97] ≠ spec_fnv1a_64 [97] ∧
      hash_str [] = 1469598103934665603 ∧ spec_fnv1a_64 [] = 14695981039346656037 :=
  ⟨by decide, by decide, by decide, by decide, by decide⟩

/-- C13: in every map reachable from `hashmap_create` by put / remove / clone,
`count` equals the number of Live slots (used and not tombstoned), and
`0 ≤ count ≤ capacity`. -/
theorem c13_count_is_live_count (m : HashMap) (hR : Reachable m) :
    m.count = m.entries.countP (fun e => e.used && !e.tombstone) ∧
      0 ≤ m.count ∧ m.count ≤ m.capacity := by
  have hI := hR.inv
  refine ⟨hI.count_eq, Nat.zero_le _, ?_⟩
  rw [hI.count_eq, ← hI.len]
  exact live_count_le m

theorem c13_count_is_live_count_witness :
    Reachable map4_b ∧
      (map4_b.count = map4_b.entries.countP (fun e => e.used && !e.tombstone) ∧
        0 ≤ map4_b.count ∧ map4_b.count ≤ map4_b.capacity) :=
  ⟨reachable_map4_b, c13_count_is_live_count map4_b reachable_map4_b⟩

theorem slot_set_ge (m : HashMap) (y : Nat) (e : Entry) (hy : ¬ y < m.entries.length) (x : Nat) :
    (m.entries.set y e).getD x emptyEntry = m.slot x := by
  rw [List.set_eq_of_length_le (by omega)]
  rfl

/-- What a returned `hashmap_put` writes: exactly one slot `y` changes; afterwards
it is Live and holds `k` with value `v`; it was not a Live slot of another key. -/
theorem put_frame (fuel : Nat) (m : HashMap) (k : Key) (v : Nat) (m' : HashMap) (r : Nat)
    (hI : Inv m) (h : hashmap_put fuel (some m) (some k) v = some (some m', r)) :
    ∃ y, y < m.capacity ∧ m'.capacity = m.capacity ∧ (∀ x, x ≠ y → m'.slot x = m.slot x) ∧
      (m'.slot y).live ∧ (m'.slot y).key = some k ∧ (m'.slot y).value = v ∧
      ((m.slot y).live → (m.slot y).key = some k) := by
  obtain ⟨_, P, _, _, hc⟩ := put_spec fuel m k v m' r h
  rcases hc with ⟨hl, hk, hm⟩ | ⟨_, t, _, _, hnl, hm⟩
  · have hx := slot_at_lt_length m hI k P
    refine ⟨slot_at m k P, by rw [← hI.len]; exact hx, by rw [hm]; rfl, ?_, ?_, ?_, ?_,
      fun _ => hk⟩
    · intro x hne; rw [hm, slot_set_value m _ v x hx, if_neg hne]
    · rw [hm, slot_set_value m _ v _ hx, if_pos rfl]; exact hl
    · rw [hm, slot_set_value m _ v _ hx, if_pos rfl]; exact hk
    · rw [hm, slot_set_value m _ v _ hx, if_pos rfl]
  · have hy := slot_at_lt_length m hI k t
    refine ⟨slot_at m k t, by rw [← hI.len]; exact hy, by rw [hm]; rfl, ?_, ?_, ?_, ?_,
      fun hl => absurd hl hnl⟩
    · intro x hne; rw [hm, slot_insert_at m _ k v x hy, if_neg hne]
    · rw [hm, slot_insert_at m _ k v _ hy, if_pos rfl]; exact ⟨rfl, rfl⟩
    · rw [hm, slot_insert_at m _ k v _ hy, if_pos rfl]
    · rw [hm, slot_insert_at m _ k v _ hy, if_pos rfl]

/-- What a returned `hashmap_remove` does to the slots: nothing when it returns 0;
when it returns 1, one Live slot holding `k` gets its tombstone flag set. -/
theorem remove_frame (fuel : Nat) (m : HashMap) (k : Key) (m' : HashMap) (r : Nat)
    (h : hashmap_remove fuel (some m) (some k) = some (some m', r)) :
    (r = 0 ∧ m' = m) ∨
    (r = 1 ∧ ∃ x, x < m.entries.length ∧ (m.slot x).live ∧ (m.slot x).holds k ∧
      m' = tomb_at m x ∧ m'.slot x = { m.slot x with tombstone := true } ∧
      ∀ y, y ≠ x → m'.slot y = m.slot y) := by
  obtain ⟨P, _, _, hc⟩ := remove_spec fuel m k m' r h
  rcases hc with ⟨_, _, hm, hr⟩ | ⟨hl, hh, hm, hr⟩
  · exact Or.inl ⟨hr, hm⟩
  · have hx : slot_at m k P < m.entries.length := slot_used_lt m _ hl.1
    refine Or.inr ⟨hr, slot_at m k P, hx, hl, hh, hm, ?_, ?_⟩
    · rw [hm, slot_tomb_at m _ _ hx, if_pos rfl]
    · intro y hne; rw [hm, slot_tomb_at m _ y hx, if_neg hne]

/-- C16: a successful `hashmap_remove(m, k)` (on any map) changes exactly one
slot, a Live slot holding `k`, and only its state: the slot becomes a Tombstone
and keeps its cached hash, key and value; every other slot, the capacity and
the number of slots are unchanged, and no used slot becomes Empty. -/
theorem c16_remove_frame (fuel : Nat) (m : HashMap) (k : Key) (m' : HashMap)
    (h : hashmap_remove fuel (some m) (some k) = some (some m', 1)) :
    ∃ x, x < m.entries.length ∧
      ((m.slot x).used = true ∧ (m.slot x).tombstone = false ∧ (m.slot x).key = some k) ∧
      ((m'.slot x).used = true ∧ (m'.slot x).tombstone = true) ∧
      ((m'.slot x).hash = (m.slot x).hash ∧ (m'.slot x).key = (m.slot x).key ∧
        (m'.slot x).value = (m.slot x).value) ∧
      (∀ y, y ≠ x → m'.slot y = m.slot y) ∧
      m'.capacity = m.capacity ∧ m'.entries.length = m.entries.length ∧
      ∀ y, (m.slot y).used = true → (m'.slot y).used = true := by
  rcases remove_frame fuel m k m' 1 h with ⟨h0, _⟩ | ⟨_, x, hx, hl, hh, hm, hsx, hso⟩
  · cases h0
  · refine ⟨x, hx, ⟨hl.1, hl.2, hh.2⟩, ?_, ?_, hso, by rw [hm]; rfl,
      by rw [hm]; simp [tomb_at], ?_⟩
    · rw [hsx]; exact ⟨hl.1, rfl⟩
    · rw [hsx]; exact ⟨rfl, rfl, rfl⟩
    · intro y hy
      by_cases e : y = x
      · subst e; rw [hsx]; exact hl.1
      · rw [hso y e]; exact hy

theorem c16_remove_frame_witness :
    hashmap_remove 4 (some map4_ab) (some [97]) = some (some map4_b, 1) ∧
    ∃ x, x < map4_ab.entries.length ∧
      ((map4_ab.slot x).used = true ∧ (map4_ab.slot x).tombstone = false ∧
        (map4_ab.slot x).key = some [97]) ∧
      ((map4_b.slot x).used = true ∧ (map4_b.slot x).tombstone = true) ∧
      ((map4_b.slot x).hash = (map4_ab.slot x).hash ∧
        (map4_b.slot x).key = (map4_ab.slot x).key ∧
        (map4_b.slot x).value = (map4_ab.slot x).value) ∧
      (∀ y, y ≠ x → map4_b.slot y = map4_ab.slot y) ∧
      map4_b.capacity = map4_ab.capacity ∧
      map4_b.entries.length = map4_ab.entries.length ∧
      ∀ y, (map4_ab.slot y).used = true → (map4_b.slot y).used = true :=
  ⟨by decide, c16_remove_frame 4 map4_ab [97] map4_b (by decide)⟩

/-- In a reachable map every used slot has a key. -/
theorem Reachable.key_some {m : HashMap} (h : Reachable m) :
    ∀ x, (m.slot x).used = true → ∃ k, (m.slot x).key = some k := by
  induction h with
  | create fuel arena capacity m a hc =>
    intro x hu
    obtain ⟨c, _, hm⟩ := hashmap_create_some fuel arena capacity m a hc
    rw [hm, slot_replicate] at hu
    cases hu
  | put fuel m k v m' r hR hp ih =>
    intro x hu
    obtain ⟨y, _, _, hso, _, hk, _, _⟩ := put_frame fuel m k v m' r hR.inv hp
    by_cases e : x = y
    · subst e; exact ⟨k, hk⟩
    · rw [hso x e] at hu ⊢; exact ih x hu
  | remove fuel m k m' r _ hr ih =>
    intro x hu
    rcases remove_frame fuel m k m' r hr with ⟨_, hm⟩ | ⟨_, y, _, hl, _, _, hsy, hso⟩
    · rw [hm] at hu ⊢; exact ih x hu
    · by_cases e : x = y
      · subst e
        rw [hsy]
        exact ih x hl.1
      · rw [hso x e] at hu ⊢; exact ih x hu
  | clone fuel src arena m a hR hc ih =>
    rw [hashmap_clone_eq fuel src arena m a hR.inv hc]; exact ih

/-- C19: in every map reachable from `hashmap_create` by put / remove / clone, no
two different Live slots (used and not tombstoned) hold equal keys. -/
theorem c19_live_keys_unique (m : HashMap) (hR : Reachable m) (x y : Nat)
    (hx : (m.slot x).used = true ∧ (m.slot x).tombstone = false)
    (hy : (m.slot y).used = true ∧ (m.slot y).tombstone = false)
    (hk : (m.slot x).key = (m.slot y).key) : x = y := by
  obtain ⟨k, hkx⟩ := hR.key_some x hx.1
  exact hR.inv.uniq x y k hx hkx hy (by rw [← hk]; exact hkx)

theorem c19_live_keys_unique_witness :
    Reachable map4_ab ∧
      ((map4_ab.slot 2).used = true ∧ (map4_ab.slot 2).tombstone = false) ∧
      ((map4_ab.slot (1 + 1)).used = true ∧ (map4_ab.slot (1 + 1)).tombstone = false) ∧
      (map4_ab.slot 2).key = (map4_ab.slot (1 + 1)).key ∧ 2 = 1 + 1 :=
  ⟨reachable_map4_ab, by decide, by decide, by decide,
    c19_live_keys_unique map4_ab reachable_map4_ab 2 (1 + 1) (by decide) (by decide)
      (by decide)⟩

theorem set_used_mono (l : List Entry) (y : Nat) (e : Entry)
    (he : (l.getD y emptyEntry).used = true → e.used = true) :
    (∀ x, (l.getD x emptyEntry).used = true → ((l.set y e).getD x emptyEntry).used = true) ∧
      (l.set y e).countP (fun e => !e.used) ≤ l.countP (fun e => !e.used) := by
  by_cases hy : y < l.length
  · constructor
    · intro x hx
      rw [getD_set l x y e hy]
      by_cases h : x = y
      · rw [if_pos h]; subst h; exact he hx
      · rw [if_neg h]; exact hx
    · have hc := countP_set (fun e => !e.used) l y e hy
      by_cases hu : (l.getD y emptyEntry).used = true
      · have h1 := he hu
        simp only [hu, h1, Bool.not_true, Bool.false_eq_true, if_false] at hc
        omega
      · have hu' : (l.getD y emptyEntry).used = false := by simpa using hu
        simp only [hu', Bool.not_false, if_true] at hc
        split at hc <;> omega
  · rw [List.set_eq_of_length_le (by omega)]
    exact ⟨fun x hx => hx, le_refl _⟩

theorem set_used_same (l : List Entry) (y : Nat) (e : Entry)
    (he : e.used = (l.getD y emptyEntry).used) :
    (l.set y e).countP (fun e => !e.used) = l.countP (fun e => !e.used) := by
  by_cases hy : y < l.length
  · have hc := countP_set (fun e => !e.used) l y e hy
    simp only [he] at hc
    omega
  · rw [List.set_eq_of_length_le (by omega)]

/-- A returned `hashmap_put` (on any map) clears no used flag and gains no Empty
slot. -/
theorem put_used_mono (fuel : Nat) (m : HashMap) (k : Key) (v : Nat) (m' : HashMap) (r : Nat)
    (h : hashmap_put fuel (some m) (some k) v = some (some m', r)) :
    (∀ x, (m.slot x).used = true → (m'.slot x).used = true) ∧
      empty_count m' ≤ empty_count m := by
  obtain ⟨_, P, _, _, hc⟩ := put_spec fuel m k v m' r h
  rcases hc with ⟨_, _, hm⟩ | ⟨_, t, _, _, _, hm⟩
  · rw [hm]
    exact set_used_mono m.entries (slot_at m k P) _ (fun hu => hu)
  · rw [hm]
    exact set_used_mono m.entries (slot_at m k t) _ (fun _ => rfl)

/-- A returned `hashmap_remove` (on any map) clears no used flag and leaves the
number of Empty slots as it was. -/
theorem remove_used_mono (fuel : Nat) (m : HashMap) (k : Key) (m' : HashMap) (r : Nat)
    (h : hashmap_remove fuel (some m) (some k) = some (some m', r)) :
    (∀ x, (m.slot x).used = true → (m'.slot x).used = true) ∧
      empty_count m' = empty_count m := by
  rcases remove_frame fuel m k m' r h with ⟨_, hm⟩ | ⟨_, x, _, _, _, hm, _, _⟩
  · rw [hm]; exact ⟨fun x hx => hx, rfl⟩
  · rw [hm]
    exact ⟨(set_used_mono m.entries x { m.slot x with tombstone := true } (fun hu => hu)).1,
      set_used_same m.entries x { m.slot x with tombstone := true } rfl⟩

/-- C20: Empty slots are never regained.  Along every sequence of `hashmap_put`
and `hashmap_remove` calls, on any map, each slot whose `used` flag was set
before is still set afterwards and the number of Empty (never-used) slots does
not increase; a `hashmap_remove` leaves that number exactly as it was. -/
theorem c20_empty_never_regained (m m' : HashMap) (h : Steps m m') :
    (∀ x, (m.slot x).used = true → (m'.slot x).used = true) ∧
      empty_count m' ≤ empty_count m ∧
      ∀ fuel k m2 r, hashmap_remove fuel (some m') (some k) = some (some m2, r) →
        (∀ x, (m'.slot x).used = true → (m2.slot x).used = true) ∧
          empty_count m2 = empty_count m' := by
  refine ⟨?_, ?_, fun fuel k m2 r hr => remove_used_mono fuel m' k m2 r hr⟩
  · induction h with
    | refl => exact fun x hx => hx
    | put fuel m1 k v m2 r _ hp ih =>
      exact fun x hx => (put_used_mono fuel m1 k v m2 r hp).1 x (ih x hx)
    | remove fuel m1 k m2 r _ hr ih =>
      exact fun x hx => (remove_used_mono fuel m1 k m2 r hr).1 x (ih x hx)
  · induction h with
    | refl => exact le_refl _
    | put fuel m1 k v m2 r _ hp ih =>
      exact le_trans (put_used_mono fuel m1 k v m2 r hp).2 ih
    | remove fuel m1 k m2 r _ hr ih =>
      exact le_trans (le_of_eq (remove_used_mono fuel m1 k m2 r hr).2) ih

theorem c20_empty_never_regained_witness :
    Steps map4 map4_b ∧
      ((∀ x, (map4.slot x).used = true → (map4_b.slot x).used = true) ∧
      empty_count map4_b ≤ empty_count map4 ∧
      ∀ fuel k m2 r, hashmap_remove fuel (some map4_b) (some k) = some (some m2, r) →
        (∀ x, (map4_b.slot x).used = true → (m2.slot x).used = true) ∧
          empty_count m2 = empty_count map4_b) :=
  have hs : Steps map4 map4_b :=
    Steps.remove 4 map4_ab [97] map4_b 1
      (Steps.put 4 map4_a [98] 2 map4_ab 1
        (Steps.put 4 map4 [97] 1 map4_a 1 Steps.refl (by decide)) (by decide))
      (by decide)
  ⟨hs, c20_empty_never_regained map4 map4_b hs⟩

/-- The result of `hashmap_get` depends on the capacity and on the `used`, `hash`,
`key` and `value` fields of the slots only (not on `tombstone`, not on `count`). -/
theorem get_congr (m m' : HashMap) (hcap : m'.capacity = m.capacity)
    (hs : ∀ x, (m'.slot x).used = (m.slot x).used ∧ (m'.slot x).hash = (m.slot x).hash ∧
      (m'.slot x).key = (m.slot x).key ∧ (m'.slot x).value = (m.slot x).value)
    (fuel : Nat) (k : Key) :
    hashmap_get fuel (some m') (some k) = hashmap_get fuel (some m) (some k) := by
  have hsa : ∀ j, slot_at m' k j = slot_at m k j := by
    intro j; unfold slot_at loop_state; rw [hcap]
  have he : ∀ j, (entry_at m' k j).used = (entry_at m k j).used ∧
      (entry_at m' k j).hash = (entry_at m k j).hash ∧
      (entry_at m' k j).key = (entry_at m k j).key ∧
      (entry_at m' k j).value = (entry_at m k j).value := by
    intro j; unfold entry_at; rw [hsa]; exact hs _
  have h1 : stop_get m' k = stop_get m k := by
    funext j
    unfold stop_get Entry.holds
    apply decide_eq_decide.2
    rw [(he j).1, (he j).2.1, (he j).2.2.1]
  have h2 : get_result m' k = get_result m k := by
    funext j
    unfold get_result
    rw [(he j).1, (he j).2.2.2]
  rw [hashmap_get_eq, hashmap_get_eq, h1, h2]

/-- A returned `hashmap_remove` changes no result of `hashmap_get`, for any key. -/
theorem get_after_remove (fuel : Nat) (m : HashMap) (k : Key) (m' : HashMap) (r : Nat)
    (h : hashmap_remove fuel (some m) (some k) = some (some m', r)) (fuel' : Nat) (k' : Key) :
    hashmap_get fuel' (some m') (some k') = hashmap_get fuel' (some m) (some k') := by
  rcases remove_frame fuel m k m' r h with ⟨_, hm⟩ | ⟨_, x, _, _, _, hm, hsx, hso⟩
  · rw [hm]
  · apply get_congr m m' (by rw [hm]; rfl)
    intro y
    by_cases e : y = x
    · subst e; rw [hsx]; exact ⟨rfl, rfl, rfl, rfl⟩
    · rw [hso y e]; exact ⟨rfl, rfl, rfl, rfl⟩

/-- A present key is found by `hashmap_get` within `capacity` rounds, with the
value of its Live slot. -/
theorem get_present (m : HashMap) (hI : Inv m) (k : Key) (hp : Present m k) :
    ∃ P, P < m.capacity ∧ (entry_at m k P).live ∧ (entry_at m k P).key = some k ∧
      (∀ j', j' < P → (entry_at m k j').used = true ∧ (entry_at m k j').key ≠ some k) ∧
      ∀ fuel, m.capacity ≤ fuel →
        hashmap_get fuel (some m) (some k) = some (entry_at m k P).value := by
  obtain ⟨P, hP, hl, hk, hb⟩ := present_position m hI k hp
  have hord := hI.order k P hl hk (fun j' hj' => (hb j' hj').2)
  have hb' : ∀ j', j' < P → (entry_at m k j').used = true ∧ (entry_at m k j').key ≠ some k :=
    fun j' hj' => ⟨(hb j' hj').1, hord j' hj'⟩
  exact ⟨P, hP, hl, hk, hb', fun fuel hf =>
    get_at_position fuel m k P hI (by omega) hl hk hb'⟩

/-- A returned `hashmap_put` of key `k` leaves `hashmap_get` of another present
key as it was. -/
theorem get_other_after_put (fuel : Nat) (m : HashMap) (k : Key) (v : Nat) (m' : HashMap)
    (r : Nat) (hI : Inv m) (h : hashmap_put fuel (some m) (some k) v = some (some m', r))
    (k' : Key) (hne : k ≠ k') (P : Nat) (hl : (entry_at m k' P).live)
    (hk : (entry_at m k' P).key = some k')
    (hb : ∀ j', j' < P → (entry_at m k' j').used = true ∧ (entry_at m k' j').key ≠ some k')
    (fuel' : Nat) (hf : P < fuel') :
    hashmap_get fuel' (some m') (some k') = some (entry_at m k' P).value := by
  obtain ⟨y, _, hcap, hso, hyl, hyk, _, hym⟩ := put_frame fuel m k v m' r hI h
  have hsa : ∀ j, slot_at m' k' j = slot_at m k' j := by
    intro j; unfold slot_at loop_state; rw [hcap]
  have hPy : slot_at m k' P ≠ y := by
    intro e
    have h1 : (m.slot y).live := by rw [← e]; exact hl
    have h2 : (m.slot y).key = some k' := by rw [← e]; exact hk
    rw [hym h1] at h2
    exact hne (Option.some.inj h2)
  have heP : entry_at m' k' P = entry_at m k' P := by
    unfold entry_at; rw [hsa, hso _ hPy]
  have := get_at_position fuel' m' k' P (Inv_put fuel m k v m' r hI h) hf
    (by rw [heP]; exact hl) (by rw [heP]; exact hk) (by
      intro j' hj'
      by_cases e : slot_at m k' j' = y
      · unfold entry_at
        rw [hsa, e]
        refine ⟨hyl.1, ?_⟩
        rw [hyk]
        exact fun h => hne (Option.some.inj h)
      · unfold entry_at
        rw [hsa, hso _ e]
        exact hb j' hj')
  rw [heP] at this
  exact this

/-- C18: probe-chain continuity under mutation.  On every reachable map, for
distinct keys `k`, `k'` with `k'` present, `hashmap_get(m, k')` returns the value
of the Live slot of `k'`, and returns that same value after a successful
`hashmap_put(m, k, v)` and after a `hashmap_remove(m, k)`. -/
theorem c18_other_key_untouched (m : HashMap) (hR : Reachable m) (k k' : Key) (hne : k ≠ k')
    (hp : Present m k') :
    ∃ x, (m.slot x).live ∧ (m.slot x).key = some k' ∧
      (∀ fuel, m.capacity ≤ fuel →
        hashmap_get fuel (some m) (some k') = some (m.slot x).value) ∧
      (∀ fuel v m', hashmap_put fuel (some m) (some k) v = some (some m', 1) →
        ∀ fuel', m.capacity ≤ fuel' →
          hashmap_get fuel' (some m') (some k') = some (m.slot x).value) ∧
      (∀ fuel m' r, hashmap_remove fuel (some m) (some k) = some (some m', r) →
        ∀ fuel', m.capacity ≤ fuel' →
          hashmap_get fuel' (some m') (some k') = some (m.slot x).value) := by
  obtain ⟨P, hP, hl, hk, hb, hget⟩ := get_present m hR.inv k' hp
  refine ⟨slot_at m k' P, hl, hk, hget, ?_, ?_⟩
  · intro fuel v m' h fuel' hf
    exact get_other_after_put fuel m k v m' 1 hR.inv h k' hne P hl hk hb fuel' (by omega)
  · intro fuel m' r h fuel' hf
    rw [get_after_remove fuel m k m' r h fuel' k']
    exact hget fuel' hf

theorem c18_other_key_untouched_witness :
    Reachable map4_ab ∧ ([97] : Key) ≠ [98] ∧ Present map4_ab [98] ∧
    ∃ x, (map4_ab.slot x).live ∧ (map4_ab.slot x).key = some [98] ∧
      (∀ fuel, map4_ab.capacity ≤ fuel →
        hashmap_get fuel (some map4_ab) (some [98]) = some (map4_ab.slot x).value) ∧
      (∀ fuel v m', hashmap_put fuel (some map4_ab) (some [97]) v = some (some m', 1) →
        ∀ fuel', map4_ab.capacity ≤ fuel' →
          hashmap_get fuel' (some m') (some [98]) = some (map4_ab.slot x).value) ∧
      (∀ fuel m' r, hashmap_remove fuel (some map4_ab) (some [97]) = some (some m', r) →
        ∀ fuel', map4_ab.capacity ≤ fuel' →
          hashmap_get fuel' (some m') (some [98]) = some (map4_ab.slot x).value) :=
  ⟨reachable_map4_ab, by decide, ⟨3, by decide, by decide⟩,
    c18_other_key_untouched map4_ab reachable_map4_ab [97] [98] (by decide)
      ⟨3, by decide, by decide⟩⟩

/-- C15, as stated, fails: in the scenario "a" occupied slot 2 before its removal;
after `hashmap_put(m, "c", 3)` slot 2 still is the Tombstone holding "a" and does
not hold "c". -/
theorem c15_c_not_in_slot_of_a :
    hashmap_put 4 (some map4_b) (some [99]) 3 = some (some map4_bc, 1) ∧
      (map4_ab.slot 2).live ∧ (map4_ab.slot 2).key = some [97] ∧
      (map4_bc.slot 2).key ≠ some [99] ∧
      (map4_bc.slot 2).key = some [97] ∧ (map4_bc.slot 2).tombstone = true :=
  ⟨by decide, by decide, by decide, by decide, by decide, by decide⟩

/-- C15, amended: the scenario on the code.  `hashmap_create(arena, 4)` gives
capacity 4; `put("a", 1)` gives count 1 (slot 2); `put("b", 2)` gives count 2
(slot 3); `remove("a")` returns 1 and gives count 1, slot 2 a Tombstone; then
`put("c", 3)` returns 1, leaves count = 2 and stores "c" in slot 0, which was
never used: the probe sequence of "c" starts at slot 0 and meets no Tombstone, so
the Tombstone of "a" in slot 2 stays. -/
theorem c15_scenario :
    hashmap_create 64 (some arena0) 4 = some (some map4, some { size := 4096, used := 160 }) ∧
      map4.capacity = 4 ∧
      hashmap_put 4 (some map4) (some [97]) 1 = some (some map4_a, 1) ∧ map4_a.count = 1 ∧
      hashmap_put 4 (some map4_a) (some [98]) 2 = some (some map4_ab, 1) ∧ map4_ab.count = 2 ∧
      hashmap_get 4 (some map4_ab) (some [97]) = some 1 ∧
      hashmap_remove 4 (some map4_ab) (some [97]) = some (some map4_b, 1) ∧
      map4_b.count = 1 ∧
      hashmap_put 4 (some map4_b) (some [99]) 3 = some (some map4_bc, 1) ∧
      map4_bc.count = 2 ∧
      slot_at map4_b [99] 0 = 0 ∧ (map4_b.slot 0).used = false ∧
      map4_bc.slot 0 = entry_c ∧
      (∀ x, x ≠ 0 → map4_bc.slot x = map4_b.slot x) := by
  refine ⟨by decide, rfl, by decide, rfl, by decide, rfl, by decide, by decide, rfl,
    by decide, rfl, by decide, by decide, by decide, ?_⟩
  intro x hx
  match x, hx with
  | 0, h => exact absurd rfl h
  | 1, _ => rfl
  | 2, _ => rfl
  | 3, _ => rfl
  | _ + 4, _ => rfl

/-- C14 (the code departs from the claim): in `map2_ab` (after
`hashmap_create(arena, 2)` and `hashmap_put` of "a" and "b") key "a" is Live at
position 0 of its probe sequence.  `hashmap_remove(m, "a")` returns 1 and leaves
a Tombstone there, but the following `hashmap_put(m, "a", 5)` never returns: the
loop records the Tombstone and goes on looking for a never-used slot, and there
is none. -/
theorem c14_put_after_remove_never_returns :
    Reachable map2_ab ∧ slot_at map2_ab [97] 0 = 0 ∧ (map2_ab.slot 0).live ∧
      (map2_ab.slot 0).key = some [97] ∧
      hashmap_remove 2 (some map2_ab) (some [97]) = some (some map2_b, 1) ∧
      (map2_b.slot 0).tombstone = true ∧
      ∀ fuel, hashmap_put fuel (some map2_b) (some [97]) 5 = none := by
  refine ⟨reachable_map2_ab, by decide, by decide, by decide, by decide, by decide, ?_⟩
  intro fuel
  exact (put_remove_spin map2_b reachable_map2_b.inv [97] (by decide)
    (not_present_of_slots map2_b [97] (by decide)) fuel 5).1

/-- Tombstone reuse where the table still has a never-used slot: removing a
present key `k` (Live at position `p` of its probe sequence) and putting it
again stores `k` in a slot that was a Tombstone, at a position `t ≤ p`; no
never-used slot is consumed and `count` is back at its value before the
removal. -/
theorem put_after_remove (m : HashMap) (hI : Inv m) (k : Key) (v : Nat) (hp : Present m k)
    (hfree : ∃ x, x < m.capacity ∧ (m.slot x).used = false) :
    ∃ p t m1 m2, p < m.capacity ∧ (entry_at m k p).live ∧ (entry_at m k p).key = some k ∧
      (∀ fuel, m.capacity ≤ fuel →
        hashmap_remove fuel (some m) (some k) = some (some m1, 1)) ∧
      (∀ fuel, m.capacity ≤ fuel →
        hashmap_put fuel (some m1) (some k) v = some (some m2, 1)) ∧
      t ≤ p ∧ (entry_at m1 k t).used = true ∧ (entry_at m1 k t).tombstone = true ∧
      (entry_at m2 k t).live ∧ (entry_at m2 k t).key = some k ∧ (entry_at m2 k t).value = v ∧
      (∀ x, (m2.slot x).used = (m1.slot x).used) ∧ m2.count = m.count := by
  obtain ⟨P, hP, hl, hk, hb⟩ := present_position m hI k hp
  have hx : slot_at m k P < m.entries.length := slot_used_lt m _ hl.1
  have hI1 : Inv (tomb_at m (slot_at m k P)) := Inv_tomb_at m _ hI hl
  have hs1 : ∀ x', (tomb_at m (slot_at m k P)).slot x' =
      if x' = slot_at m k P then { m.slot (slot_at m k P) with tombstone := true }
      else m.slot x' := fun x' => slot_tomb_at m _ x' hx
  have hu1 : ∀ x', ((tomb_at m (slot_at m k P)).slot x').used = (m.slot x').used := by
    intro x'; rw [hs1]; by_cases e : x' = slot_at m k P
    · rw [if_pos e, e]
    · rw [if_neg e]
  have hcap1 : (tomb_at m (slot_at m k P)).capacity = m.capacity := rfl
  have hnp : ¬ Present (tomb_at m (slot_at m k P)) k := by
    rintro ⟨z, hzl, hzk⟩
    rw [hs1] at hzl hzk
    by_cases e : z = slot_at m k P
    · rw [if_pos e] at hzl; cases hzl.2
    · rw [if_neg e] at hzl hzk
      exact e (hI.uniq z _ k hzl hzk hl hk)
  have hfree1 : ∃ x, x < (tomb_at m (slot_at m k P)).capacity ∧
      ((tomb_at m (slot_at m k P)).slot x).used = false := by
    obtain ⟨x0, hx0, hux0⟩ := hfree
    exact ⟨x0, hx0, by rw [hu1]; exact hux0⟩
  generalize hm1 : tomb_at m (slot_at m k P) = m1 at hI1 hs1 hu1 hcap1 hnp hfree1
  have hsa : ∀ j, slot_at m1 k j = slot_at m k j := by
    intro j; unfold slot_at loop_state; rw [hcap1]
  have hea : ∀ j, entry_at m1 k j = m1.slot (slot_at m k j) := by
    intro j; unfold entry_at; rw [hsa]
  have htP : (entry_at m1 k P).tombstone = true := by
    rw [hea, hs1, if_pos rfl]
  obtain ⟨j0, hj0, hu0, _⟩ := unused_position m1 hI1 k hfree1
  have hs0 : stop_put m1 k j0 = true := decide_eq_true (Or.inl hu0)
  obtain ⟨Q, hQ0, hQs, hQb, hfs⟩ := first_stop_exists j0 hs0
  have huQ : (entry_at m1 k Q).used = false := by
    rcases stop_put_true m1 k Q hQs with h | h
    · exact h
    · cases hu' : (entry_at m1 k Q).used with
      | false => rfl
      | true => exact absurd ⟨slot_at m1 k Q, ⟨hu', h.1⟩, h.2.2⟩ hnp
  have hPQ : P < Q := by
    by_contra hc
    have : (entry_at m1 k Q).used = true := by
      rw [hea, hu1]
      rcases Nat.lt_or_ge Q P with h | h
      · exact (hb Q h).1
      · have : Q = P := by omega
        rw [this]; exact hl.1
    rw [huQ] at this; cases this
  cases hft : first_tomb m1 k 0 Q with
  | none =>
    have := first_tomb_none m1 k Q 0 hft P (Nat.zero_le _) (by omega)
    rw [htP] at this; cases this
  | some y =>
    obtain ⟨t, _, htQ, hty, htt, htb⟩ := first_tomb_some m1 k Q 0 y hft
    have htP' : t ≤ P := by
      by_contra hc
      have := htb P (Nat.zero_le _) (by omega)
      rw [htP] at this; cases this
    have hyl : slot_at m1 k t < m1.entries.length := slot_at_lt_length m1 hI1 k t
    have hs2 : ∀ x', (insert_at m1 (slot_at m1 k t) k v).slot x' =
        if x' = slot_at m1 k t then
          { key := some k, value := v, hash := hash_str k, used := true, tombstone := false }
        else m1.slot x' := fun x' => slot_insert_at m1 _ k v x' hyl
    have he2 : entry_at (insert_at m1 (slot_at m1 k t) k v) k t =
        { key := some k, value := v, hash := hash_str k, used := true, tombstone := false } := by
      show (insert_at m1 (slot_at m1 k t) k v).slot (slot_at m1 k t) = _
      rw [hs2, if_pos rfl]
    have hut : (entry_at m1 k t).used = true := hI1.tomb_used _ htt
    refine ⟨P, t, m1, insert_at m1 (slot_at m1 k t) k v, hP, hl, hk, ?_, ?_, htP', hut, htt,
      ?_, ?_, ?_, ?_, ?_⟩
    · intro fuel hf
      rw [← hm1]
      exact remove_at_position fuel m k P hI (by omega) hl hk hb
    · intro fuel hf
      rw [hashmap_put_eq, hfs fuel (by rw [hcap1] at hj0; omega)]
      simp only [Option.map_some', put_result]
      rw [if_pos huQ, hft, ← hty]
      rfl
    · rw [he2]; exact ⟨rfl, rfl⟩
    · rw [he2]
    · rw [he2]
    · intro x'
      rw [hs2]
      by_cases e : x' = slot_at m1 k t
      · rw [if_pos e, e]; exact hut.symm
      · rw [if_neg e]
    · have hc1 : m1.count + 1 = m.count := by
        rw [← hm1]; exact count_tomb_at m _ hI hl
      obtain ⟨n, hn, hcap⟩ := hI.cap_pow2
      have hw := word_gt n hn
      have hle := live_count_le m
      have hlen := hI.len
      have hcnt := hI.count_eq
      show (m1.count + 1) % WORD = m.count
      rw [hc1]
      apply Nat.mod_eq_of_lt
      omega

/-- A map that `hashmap_create` returns has a slot array whose size in bytes fits
in `size_t`. -/
theorem hashmap_create_no_wrap (fuel : Nat) (a : Arena) (r : Nat) (m : HashMap)
    (a' : Option Arena) (h : hashmap_create fuel (some a) r = some (some m, a')) :
    m.capacity * sizeof_Entry < WORD := by
  unfold hashmap_create at h
  simp only at h
  split at h
  · cases h
  · split at h
    · cases h
    · split at h
      · cases h
      · split at h
        · rename_i hsz
          simp only [Option.some.injEq, Prod.mk.injEq] at h
          rw [← h.1]
          exact hsz
        · cases h

end GigaHashMap
